import Mathlib

/-!
A verification development for the tiq-db tag association engine.

The store keeps two tables: `tags` (one row per label, identified by the
pair of its text and its namespace, with a usage counter and timestamps)
and `tags_associations` (an unordered pair of label ids per edge).  The
operations modelled here are `associate` (materialize labels and connect
every tag to every token inside one transaction), `describe` (intersect
the neighbor sets of the query labels) and `search` (SQL LIKE lookup).

Timestamps are modelled as natural numbers; the wall clock at the time of
a call is passed explicitly as the `now` argument.  The autoincrement
sequence of the `tags` table is the `nextId` field of the store state.
-/

namespace TiqDb

/-- A row of the `tags` table: surrogate id, label text, namespace,
usage counter (schema default 0) and the two timestamp columns. -/
structure TagRow where
  id : Nat
  text : String
  ns : String
  count : Nat
  created_at : Nat
  updated_at : Nat
deriving DecidableEq, Repr

/-- A row of the `tags_associations` table: one stored edge, kept in a
single direction and compared as an unordered pair. -/
structure AssocRow where
  tag_id1 : Nat
  tag_id2 : Nat
deriving DecidableEq, Repr

/-- The relational store state: the two tables plus the autoincrement
sequence for `tags.id`. -/
structure DB where
  tags : List TagRow
  assocs : List AssocRow
  nextId : Nat
deriving DecidableEq, Repr

/-- Helper for `uniqFirst`: keep the elements not yet seen, tracking the
seen ones in an accumulator. -/
def uniqAux {α : Type} [DecidableEq α] : List α → List α → List α
  | [], _ => []
  | x :: xs, seen => if x ∈ seen then uniqAux xs seen else x :: uniqAux xs (x :: seen)

/-- lodash `_.uniq`: deduplicate a list keeping first occurrences. -/
def uniqFirst {α : Type} [DecidableEq α] (l : List α) : List α := uniqAux l []

/-- lodash `_.xor`: symmetric difference of two lists (unique values). -/
def lxor (a b : List String) : List String :=
  uniqFirst (a.filter (fun x => decide (x ∉ b)) ++ b.filter (fun x => decide (x ∉ a)))

/-- `equalArrays` from the source: two arrays are equal or palindromes,
i.e. equal with one of them reversed. -/
def equalArrays (a b : List Nat) : Bool := a == b || a == b.reverse

/-- Unordered equality of two stored edges, as the source computes it by
applying `equalArrays` to the value lists of the two rows. -/
def eqPair (x y : AssocRow) : Bool :=
  equalArrays [x.tag_id1, x.tag_id2] [y.tag_id1, y.tag_id2]

/-- The deduplicated union of the two input collections
(`allTags = _.uniq(tokens.concat(tags))`). -/
def allTagsOf (tokens tags : List String) : List String :=
  uniqFirst (tokens ++ tags)

/-- The `tags` rows fetched at the start of `associate`: text in the
deduplicated union and namespace equal to the call's namespace. -/
def existingTagsOf (db : DB) (tokens tags : List String) (ns : String) : List TagRow :=
  db.tags.filter (fun r => decide (r.text ∈ allTagsOf tokens tags ∧ r.ns = ns))

/-- `missingTagsRaw = _.xor(allTags, _.pluck(existingTags, 'text'))`:
the input texts with no label row yet. -/
def missingTextsOf (db : DB) (tokens tags : List String) (ns : String) : List String :=
  lxor (allTagsOf tokens tags) ((existingTagsOf db tokens tags ns).map (fun r => r.text))

/-- The rows the label insert creates for the missing texts: consecutive
fresh ids, the call's namespace, counter at the schema default 0 and one
uniform timestamp. -/
def mkRows : List String → String → Nat → Nat → List TagRow
  | [], _, _, _ => []
  | t :: ts, ns, nid, now => ⟨nid, t, ns, 0, now, now⟩ :: mkRows ts ns (nid + 1) now

/-- Store state after the label insert step of `associate`. -/
def db1Of (db : DB) (tokens tags : List String) (ns : String) (now : Nat) : DB :=
  { db with
    tags := db.tags ++ mkRows (missingTextsOf db tokens tags ns) ns db.nextId now,
    nextId := db.nextId + (missingTextsOf db tokens tags ns).length }

/-- The re-fetch of the freshly created labels, keyed by text and
namespace (ids are never taken from the insert result). -/
def fetchedMissingOf (db : DB) (tokens tags : List String) (ns : String) (now : Nat) : List TagRow :=
  (db1Of db tokens tags ns now).tags.filter
    (fun r => decide (r.text ∈ missingTextsOf db tokens tags ns ∧ r.ns = ns))

/-- `scope.fetchedTags`: the previously existing rows followed by the
re-fetched fresh rows. -/
def fetchedTagsOf (db : DB) (tokens tags : List String) (ns : String) (now : Nat) : List TagRow :=
  existingTagsOf db tokens tags ns ++ fetchedMissingOf db tokens tags ns now

/-- The ids of all labels involved in the call. -/
def fetchedIdsOf (db : DB) (tokens tags : List String) (ns : String) (now : Nat) : List Nat :=
  (fetchedTagsOf db tokens tags ns now).map (fun r => r.id)

/-- The existing-edge fetch: every association row whose first endpoint
is one of the involved label ids. -/
def existingAssocsOf (db : DB) (tokens tags : List String) (ns : String) (now : Nat) : List AssocRow :=
  (db1Of db tokens tags ns now).assocs.filter
    (fun a => decide (a.tag_id1 ∈ fetchedIdsOf db tokens tags ns now))

/-- The tag side of the partition: ids of fetched rows whose text occurs
in the `tags` argument (tag membership takes precedence). -/
def tagIdsOf (db : DB) (tokens tags : List String) (ns : String) (now : Nat) : List Nat :=
  ((fetchedTagsOf db tokens tags ns now).filter (fun r => decide (r.text ∈ tags))).map
    (fun r => r.id)

/-- The token side of the partition: ids of fetched rows whose text does
not occur in the `tags` argument. -/
def tokenIdsOf (db : DB) (tokens tags : List String) (ns : String) (now : Nat) : List Nat :=
  ((fetchedTagsOf db tokens tags ns now).filter (fun r => decide (r.text ∉ tags))).map
    (fun r => r.id)

/-- The candidate edge set: the cross product of the tag ids with the
token ids, built in one direction only. -/
def candidatesOf (db : DB) (tokens tags : List String) (ns : String) (now : Nat) : List AssocRow :=
  (tagIdsOf db tokens tags ns now).flatMap
    (fun tid => (tokenIdsOf db tokens tags ns now).map (fun t => ⟨tid, t⟩))

/-- The candidates that match no existing edge under unordered pair
equality; only these are inserted. -/
def missingAssocsOf (db : DB) (tokens tags : List String) (ns : String) (now : Nat) : List AssocRow :=
  (candidatesOf db tokens tags ns now).filter
    (fun c => !((existingAssocsOf db tokens tags ns now).any (fun e => eqPair c e)))

/-- Store state after the edge insert step of `associate`. -/
def db2Of (db : DB) (tokens tags : List String) (ns : String) (now : Nat) : DB :=
  { db1Of db tokens tags ns now with
    assocs := (db1Of db tokens tags ns now).assocs ++ missingAssocsOf db tokens tags ns now }

/-- The distinct ids appearing as an endpoint of some inserted edge;
exactly these rows get their counter bumped. -/
def countIdsOf (db : DB) (tokens tags : List String) (ns : String) (now : Nat) : List Nat :=
  uniqFirst ((missingAssocsOf db tokens tags ns now).map (fun a => a.tag_id1) ++
    (missingAssocsOf db tokens tags ns now).map (fun a => a.tag_id2))

/-- The bulk counter update: `count = count + 1` and a fresh
`updated_at` for the rows whose id is listed, all other rows untouched. -/
def bumpRow (ids : List Nat) (now : Nat) (r : TagRow) : TagRow :=
  if r.id ∈ ids then { r with count := r.count + 1, updated_at := now } else r

/-- The whole transaction body of `associate`, from the label fetch to
the counter update (the counter update is skipped when no edge was
inserted). -/
def associateRun (db : DB) (tokens tags : List String) (ns : String) (now : Nat) : DB :=
  let d2 := db2Of db tokens tags ns now
  if countIdsOf db tokens tags ns now = [] then d2
  else { d2 with tags := d2.tags.map (bumpRow (countIdsOf db tokens tags ns now) now) }

/-- `associate(tokens, tags, ns)`: returns with no value (and without
opening a transaction) when either input collection is empty, otherwise
runs the transaction body.  `ns` is the namespace actually used, i.e.
after the `'public'` default has been applied. -/
def associate (db : DB) (tokens tags : List String) (ns : String) (now : Nat) : Option DB :=
  if tokens = [] ∨ tags = [] then none
  else some (associateRun db tokens tags ns now)

/-- The store state observable after an `associate` call: unchanged when
the call returned immediately. -/
def associateState (db : DB) (tokens tags : List String) (ns : String) (now : Nat) : DB :=
  (associate db tokens tags ns now).getD db

/-- The per-token neighbor query of `describe`: join the association
table with `tags` on either endpoint, keep the rows for the queried
label, and select the other endpoint via the SQL `case` expression. -/
def neighborsOf (db : DB) (tok ns : String) : List Nat :=
  db.assocs.flatMap (fun a =>
    (db.tags.filter (fun g =>
        decide ((a.tag_id1 = g.id ∨ a.tag_id2 = g.id) ∧ g.text = tok ∧ g.ns = ns))).map
      (fun g => if a.tag_id1 = g.id then a.tag_id2 else a.tag_id1))

/-- lodash `_.intersection`: the distinct values of the first list that
occur in every other list. -/
def intersectionAll : List (List Nat) → List Nat
  | [] => []
  | x :: xs => (uniqFirst x).filter (fun v => decide (∀ l ∈ xs, v ∈ l))

/-- The body of `describe`: deduplicate the query tokens, intersect the
per-token neighbor id lists, and resolve the surviving ids to texts
(returning the empty id list directly when the intersection is empty). -/
def describeRun (db : DB) (tokens : List String) (ns : String) : List String :=
  let ids := intersectionAll ((uniqFirst tokens).map (fun tok => neighborsOf db tok ns))
  if ids = [] then []
  else (db.tags.filter (fun g => decide (g.id ∈ ids))).map (fun g => g.text)

/-- `describe(tokens, ns)`: returns with no value when the token list is
empty, otherwise the resolved texts. -/
def describe (db : DB) (tokens : List String) (ns : String) : Option (List String) :=
  if tokens = [] then none else some (describeRun db tokens ns)

/-- SQL LIKE matching over character lists, with `%` and `_` as
wildcards and ASCII-case-insensitive comparison of plain characters
(the default collation of the sqlite3 backend).  The `fuel` argument
only bounds the recursion depth: every step consumes a pattern or a
string character, so `p.length + s.length + 1` units never run out. -/
def likeFuel : Nat → List Char → List Char → Bool
  | 0, _, _ => false
  | _ + 1, [], [] => true
  | _ + 1, [], _ :: _ => false
  | fuel + 1, '%' :: ps, s =>
    likeFuel fuel ps s ||
      (match s with
       | [] => false
       | _ :: s2 => likeFuel fuel ('%' :: ps) s2)
  | fuel + 1, '_' :: ps, s =>
    (match s with
     | [] => false
     | _ :: s2 => likeFuel fuel ps s2)
  | fuel + 1, p :: ps, s =>
    (match s with
     | [] => false
     | c :: s2 => (p.toLower == c.toLower) && likeFuel fuel ps s2)

/-- SQL LIKE matching over character lists with sufficient fuel. -/
def likeChars (p s : List Char) : Bool := likeFuel (p.length + s.length + 1) p s

/-- SQL LIKE matching over strings. -/
def likeMatch (pat s : String) : Bool := likeChars pat.toList s.toList

/-- `search(text, ns)`: returns with no value for the empty string,
otherwise the texts of the namespace's rows matching the LIKE pattern
built by wrapping the raw input in `%...%`. -/
def search (db : DB) (text ns : String) : Option (List String) :=
  if text = "" then none
  else some ((db.tags.filter
      (fun g => likeMatch ("%" ++ text ++ "%") g.text && decide (g.ns = ns))).map
    (fun g => g.text))

/-- Literal (case-sensitive) substring occurrence, used to state that a
LIKE pattern can match without literal containment. -/
def substrCheck (p s : String) : Bool :=
  (List.range (s.toList.length + 1)).any
    (fun i => ((s.toList.drop i).take p.toList.length) == p.toList)

/-- Wellformedness of a store state: distinct surrogate ids, the unique
constraint on `(text, namespace)`, ids below the autoincrement sequence,
and no two association rows equal as unordered pairs. -/
def WF (db : DB) : Prop :=
  (db.tags.map (fun r => r.id)).Nodup ∧
  (db.tags.map (fun r => (r.text, r.ns))).Nodup ∧
  (∀ r ∈ db.tags, r.id < db.nextId) ∧
  db.assocs.Pairwise (fun a b => eqPair a b = false)

instance (db : DB) : Decidable (WF db) := by
  unfold WF
  infer_instance

/-- The label rows for a given text and namespace. -/
def labelRows (db : DB) (txt ns : String) : List TagRow :=
  db.tags.filter (fun r => decide (r.text = txt ∧ r.ns = ns))

/-- The id of the first label row matching a text and namespace. -/
def findLabelId (db : DB) (txt ns : String) : Option Nat :=
  (db.tags.find? (fun r => decide (r.text = txt ∧ r.ns = ns))).map (fun r => r.id)

/-- The number of association rows connecting the labels of two texts in
a namespace, counting both stored endpoint orders. -/
def countEdgesBetweenTexts (db : DB) (x y ns : String) : Nat :=
  match findLabelId db x ns, findLabelId db y ns with
  | some i, some j => (db.assocs.filter (fun e => eqPair e ⟨i, j⟩)).length
  | _, _ => 0

/-- An edge touches an id when the id is one of its endpoints. -/
def touches (e : AssocRow) (i : Nat) : Prop := e.tag_id1 = i ∨ e.tag_id2 = i

instance (e : AssocRow) (i : Nat) : Decidable (touches e i) := by
  unfold touches
  infer_instance

/-- The label with the given id gained a new edge in the call. -/
def gainedNewEdge (db : DB) (tokens tags : List String) (ns : String) (now : Nat) (i : Nat) : Prop :=
  ∃ e ∈ missingAssocsOf db tokens tags ns now, touches e i

instance (db : DB) (tokens tags : List String) (ns : String) (now : Nat) (i : Nat) :
    Decidable (gainedNewEdge db tokens tags ns now i) := by
  unfold gainedNewEdge
  infer_instance

/-- The label of the given id is connected to the label of the given
text by a stored edge, in either endpoint order. -/
def connectedTo (db : DB) (i : Nat) (tok ns : String) : Prop :=
  ∃ gt ∈ db.tags, gt.text = tok ∧ gt.ns = ns ∧ ∃ e ∈ db.assocs, eqPair e ⟨gt.id, i⟩ = true

instance (db : DB) (i : Nat) (tok ns : String) : Decidable (connectedTo db i tok ns) := by
  unfold connectedTo
  infer_instance

/-- The `associate` promise chain with an explicit failure oracle: the
steps are the label fetch, the label insert, the label re-fetch, the
edge fetch, the edge insert and the counter update; `failAt = some k`
models a storage failure rejecting the k-th step's promise. -/
def associateChain (db : DB) (tokens tags : List String) (ns : String) (now : Nat)
    (failAt : Option Nat) : Except Unit DB :=
  if failAt = some 0 then Except.error () else
  if failAt = some 1 then Except.error () else
  let d1 : DB :=
    { db with
      tags := db.tags ++ mkRows (missingTextsOf db tokens tags ns) ns db.nextId now,
      nextId := db.nextId + (missingTextsOf db tokens tags ns).length }
  if failAt = some 2 then Except.error () else
  if failAt = some 3 then Except.error () else
  if failAt = some 4 then Except.error () else
  let d2 : DB := { d1 with assocs := d1.assocs ++ missingAssocsOf db tokens tags ns now }
  if failAt = some 5 then Except.error () else
  Except.ok (if countIdsOf db tokens tags ns now = [] then d2
    else { d2 with tags := d2.tags.map (bumpRow (countIdsOf db tokens tags ns now) now) })

/-- The store state observable after the transaction settles: the final
handler commits on success and calls `trans.rollback` on any rejection,
and the backend's transaction contract reverts every uncommitted write
on rollback, so a failed chain leaves the pre-transaction state. -/
def associateTxResult (db : DB) (tokens tags : List String) (ns : String) (now : Nat)
    (failAt : Option Nat) : DB :=
  match associateChain db tokens tags ns now failAt with
  | Except.error _ => db
  | Except.ok d => d

/-! ### Generic list lemmas -/

theorem map_nodup_inj {α β : Type} (f : α → β) (l : List α)
    (h : (l.map f).Nodup) {a b : α} (ha : a ∈ l) (hb : b ∈ l) (hf : f a = f b) : a = b := by
  by_contra hne
  have hp : l.Pairwise (fun x y => f x ≠ f y) := List.pairwise_map.mp h
  have hsym : Symmetric (fun x y : α => f x ≠ f y) := by
    intro x y hxy h2
    exact hxy h2.symm
  exact (hp.forall hsym ha hb hne) hf

theorem mem_uniqAux {α : Type} [DecidableEq α] (a : α) (l seen : List α) :
    a ∈ uniqAux l seen ↔ a ∈ l ∧ a ∉ seen := by
  induction l generalizing seen with
  | nil => simp [uniqAux]
  | cons x xs ih =>
    by_cases hx : x ∈ seen
    · rw [uniqAux, if_pos hx, ih]
      constructor
      · rintro ⟨h1, h2⟩
        exact ⟨List.mem_cons_of_mem x h1, h2⟩
      · rintro ⟨h1, h2⟩
        rcases List.mem_cons.mp h1 with rfl | h3
        · exact absurd hx h2
        · exact ⟨h3, h2⟩
    · rw [uniqAux, if_neg hx, List.mem_cons, ih]
      constructor
      · rintro (rfl | ⟨h1, h2⟩)
        · exact ⟨List.mem_cons_self a xs, hx⟩
        · refine ⟨List.mem_cons_of_mem x h1, ?_⟩
          intro hmem
          exact h2 (List.mem_cons_of_mem x hmem)
      · rintro ⟨h1, h2⟩
        by_cases hax : a = x
        · exact Or.inl hax
        · rcases List.mem_cons.mp h1 with rfl | h3
          · exact Or.inl rfl
          · refine Or.inr ⟨h3, ?_⟩
            intro hmem
            rcases List.mem_cons.mp hmem with rfl | h4
            · exact hax rfl
            · exact h2 h4

theorem mem_uniqFirst {α : Type} [DecidableEq α] (a : α) (l : List α) :
    a ∈ uniqFirst l ↔ a ∈ l := by
  unfold uniqFirst
  rw [mem_uniqAux]
  simp

theorem nodup_uniqAux {α : Type} [DecidableEq α] (l seen : List α) :
    (uniqAux l seen).Nodup := by
  induction l generalizing seen with
  | nil => simp [uniqAux]
  | cons x xs ih =>
    by_cases hx : x ∈ seen
    · rw [uniqAux, if_pos hx]
      exact ih seen
    · rw [uniqAux, if_neg hx]
      refine List.nodup_cons.mpr ⟨?_, ih (x :: seen)⟩
      intro hmem
      exact ((mem_uniqAux x xs (x :: seen)).mp hmem).2 (List.mem_cons_self x seen)

theorem nodup_uniqFirst {α : Type} [DecidableEq α] (l : List α) : (uniqFirst l).Nodup :=
  nodup_uniqAux l []

theorem uniqFirst_ne_nil {α : Type} [DecidableEq α] (l : List α) (h : l ≠ []) :
    uniqFirst l ≠ [] := by
  cases l with
  | nil => exact absurd rfl h
  | cons x xs => simp [uniqFirst, uniqAux]

theorem mem_lxor (a b : List String) (x : String) :
    x ∈ lxor a b ↔ (x ∈ a ∧ x ∉ b) ∨ (x ∈ b ∧ x ∉ a) := by
  unfold lxor
  rw [mem_uniqFirst]
  simp [List.mem_filter]

theorem nodup_lxor (a b : List String) : (lxor a b).Nodup := nodup_uniqFirst _

/-! ### Lemmas about the freshly inserted label rows -/

theorem mkRows_map_text (ts : List String) (ns : String) (nid now : Nat) :
    (mkRows ts ns nid now).map (fun r => r.text) = ts := by
  induction ts generalizing nid with
  | nil => rfl
  | cons t ts ih => simp [mkRows, ih]

theorem mem_mkRows (r : TagRow) (ts : List String) (ns : String) (nid now : Nat)
    (h : r ∈ mkRows ts ns nid now) :
    r.ns = ns ∧ r.text ∈ ts ∧ nid ≤ r.id ∧ r.id < nid + ts.length ∧
      r.count = 0 ∧ r.created_at = now ∧ r.updated_at = now := by
  induction ts generalizing nid with
  | nil => simp [mkRows] at h
  | cons t ts ih =>
    simp only [mkRows, List.mem_cons] at h
    rcases h with rfl | h
    · refine ⟨rfl, by simp, Nat.le_refl _, by simp, rfl, rfl, rfl⟩
    · obtain ⟨h1, h2, h3, h4, h5⟩ := ih (nid + 1) h
      refine ⟨h1, by simp [h2], by omega, by simp [List.length_cons]; omega, h5⟩

theorem mkRows_ids_nodup (ts : List String) (ns : String) (nid now : Nat) :
    ((mkRows ts ns nid now).map (fun r => r.id)).Nodup := by
  induction ts generalizing nid with
  | nil => simp [mkRows]
  | cons t ts ih =>
    simp only [mkRows, List.map_cons, List.nodup_cons]
    refine ⟨?_, ih (nid + 1)⟩
    intro hmem
    rcases List.mem_map.mp hmem with ⟨r, hr, hid⟩
    have := mem_mkRows r ts ns (nid + 1) now hr
    omega

theorem mkRows_map_key (ts : List String) (ns : String) (nid now : Nat) :
    (mkRows ts ns nid now).map (fun r => (r.text, r.ns)) = ts.map (fun t => (t, ns)) := by
  induction ts generalizing nid with
  | nil => rfl
  | cons t ts ih => simp [mkRows, ih]

theorem exists_mkRow_of_mem (ts : List String) (ns : String) (nid now : Nat) (txt : String)
    (h : txt ∈ ts) : ∃ r ∈ mkRows ts ns nid now, r.text = txt := by
  have : txt ∈ (mkRows ts ns nid now).map (fun r => r.text) := by
    rw [mkRows_map_text]; exact h
  rcases List.mem_map.mp this with ⟨r, hr, ht⟩
  exact ⟨r, hr, ht⟩

/-! ### Lemmas about unordered pair equality -/

theorem eqPair_iff (x y : AssocRow) :
    eqPair x y = true ↔ (x.tag_id1 = y.tag_id1 ∧ x.tag_id2 = y.tag_id2) ∨
      (x.tag_id1 = y.tag_id2 ∧ x.tag_id2 = y.tag_id1) := by
  unfold eqPair equalArrays
  rw [show ([y.tag_id1, y.tag_id2] : List Nat).reverse = [y.tag_id2, y.tag_id1] from rfl]
  simp

theorem eqPair_refl (x : AssocRow) : eqPair x x = true := by
  rw [eqPair_iff]
  exact Or.inl ⟨rfl, rfl⟩

theorem eqPair_symm {x y : AssocRow} (h : eqPair x y = true) : eqPair y x = true := by
  rw [eqPair_iff] at h ⊢
  tauto

theorem eqPair_trans {x y z : AssocRow} (h1 : eqPair x y = true) (h2 : eqPair y z = true) :
    eqPair x z = true := by
  rw [eqPair_iff] at h1 h2 ⊢
  rcases h1 with ⟨a, b⟩ | ⟨a, b⟩ <;> rcases h2 with ⟨c, d⟩ | ⟨c, d⟩ <;> omega

theorem eqPair_swap (e : AssocRow) (i j : Nat) :
    eqPair e ⟨i, j⟩ = eqPair ⟨j, i⟩ e := by
  rcases h1 : eqPair e ⟨i, j⟩ <;> rcases h2 : eqPair (⟨j, i⟩ : AssocRow) e
  · rfl
  · rw [eqPair_iff] at h2
    have : eqPair e ⟨i, j⟩ = true := by
      rw [eqPair_iff]
      simp only at h2
      tauto
    rw [h1] at this
    exact absurd this (by simp)
  · rw [eqPair_iff] at h1
    have : eqPair (⟨j, i⟩ : AssocRow) e = true := by
      rw [eqPair_iff]
      simp only at h1 ⊢
      tauto
    rw [h2] at this
    exact absurd this (by simp)
  · rfl

theorem eqPair_endpoints {x y : AssocRow} (h : eqPair x y = true) :
    y.tag_id1 = x.tag_id1 ∨ y.tag_id1 = x.tag_id2 := by
  rw [eqPair_iff] at h
  tauto

/-- In a list of pairwise unordered-distinct edges, at most one row
matches a given edge. -/
theorem filter_eqPair_len_le_one (l : List AssocRow)
    (hl : l.Pairwise (fun a b => eqPair a b = false)) (x : AssocRow) :
    (l.filter (fun e => eqPair e x)).length ≤ 1 := by
  induction l with
  | nil => simp
  | cons a l ih =>
    have ha := (List.pairwise_cons.mp hl).1
    have hl2 := (List.pairwise_cons.mp hl).2
    by_cases hax : eqPair a x = true
    · have hrest : l.filter (fun e => eqPair e x) = [] := by
        rw [List.filter_eq_nil_iff]
        intro e he hex
        have h2 : eqPair a e = true := eqPair_trans hax (eqPair_symm hex)
        rw [ha e he] at h2
        exact absurd h2 (by simp)
      simp [List.filter_cons, hax, hrest]
    · have hax2 : eqPair a x = false := by simpa using hax
      simp only [List.filter_cons, hax2, Bool.false_eq_true, if_false]
      exact ih hl2

/-- In a list of rows with distinct keys, at most one row matches a
given key. -/
theorem filter_key_len_le_one {α β : Type} [DecidableEq β] (f : α → β) (l : List α)
    (h : (l.map f).Nodup) (b : β) :
    (l.filter (fun a => decide (f a = b))).length ≤ 1 := by
  induction l with
  | nil => simp
  | cons a l ih =>
    simp only [List.map_cons, List.nodup_cons] at h
    by_cases hab : f a = b
    · have hrest : l.filter (fun c => decide (f c = b)) = [] := by
        rw [List.filter_eq_nil_iff]
        intro c hc hcb
        rw [decide_eq_true_eq] at hcb
        refine h.1 ?_
        rw [show f a = f c by rw [hab, hcb]]
        exact List.mem_map_of_mem f hc
      simp [List.filter_cons, hab, hrest]
    · have hab2 : decide (f a = b) = false := by simpa using hab
      simp only [List.filter_cons, hab2, Bool.false_eq_true, if_false]
      exact ih h.2

/-! ### Lemmas about the stages of `associate` -/

theorem mem_allTags (tokens tags : List String) (x : String) :
    x ∈ allTagsOf tokens tags ↔ x ∈ tokens ∨ x ∈ tags := by
  unfold allTagsOf
  rw [mem_uniqFirst, List.mem_append]

theorem mem_existingTags (db : DB) (tokens tags : List String) (ns : String) (r : TagRow) :
    r ∈ existingTagsOf db tokens tags ns ↔
      r ∈ db.tags ∧ r.text ∈ allTagsOf tokens tags ∧ r.ns = ns := by
  unfold existingTagsOf
  simp [List.mem_filter]

theorem mem_missingTexts (db : DB) (tokens tags : List String) (ns : String) (x : String) :
    x ∈ missingTextsOf db tokens tags ns ↔
      x ∈ allTagsOf tokens tags ∧ ∀ r ∈ db.tags, ¬(r.text = x ∧ r.ns = ns) := by
  unfold missingTextsOf
  rw [mem_lxor]
  constructor
  · rintro (⟨ha, hb⟩ | ⟨ha, hb⟩)
    · refine ⟨ha, ?_⟩
      rintro r hr ⟨ht, hn⟩
      refine hb ?_
      rw [List.mem_map]
      refine ⟨r, (mem_existingTags db tokens tags ns r).mpr ⟨hr, ?_, hn⟩, ht⟩
      rw [ht]
      exact ha
    · exfalso
      rcases List.mem_map.mp ha with ⟨r, hr, rfl⟩
      exact hb ((mem_existingTags db tokens tags ns r).mp hr).2.1
  · rintro ⟨ha, hb⟩
    left
    refine ⟨ha, ?_⟩
    intro hmem
    rcases List.mem_map.mp hmem with ⟨r, hr, rfl⟩
    rcases (mem_existingTags db tokens tags ns r).mp hr with ⟨hr2, _, hn⟩
    exact hb r hr2 ⟨rfl, hn⟩

theorem nodup_missingTexts (db : DB) (tokens tags : List String) (ns : String) :
    (missingTextsOf db tokens tags ns).Nodup := nodup_lxor _ _

theorem db1_assocs (db : DB) (tokens tags : List String) (ns : String) (now : Nat) :
    (db1Of db tokens tags ns now).assocs = db.assocs := rfl

theorem db1_tags (db : DB) (tokens tags : List String) (ns : String) (now : Nat) :
    (db1Of db tokens tags ns now).tags =
      db.tags ++ mkRows (missingTextsOf db tokens tags ns) ns db.nextId now := rfl

theorem fetchedMissing_eq (db : DB) (tokens tags : List String) (ns : String) (now : Nat) :
    fetchedMissingOf db tokens tags ns now =
      mkRows (missingTextsOf db tokens tags ns) ns db.nextId now := by
  unfold fetchedMissingOf
  rw [db1_tags, List.filter_append]
  have h1 : db.tags.filter
      (fun r => decide (r.text ∈ missingTextsOf db tokens tags ns ∧ r.ns = ns)) = [] := by
    rw [List.filter_eq_nil_iff]
    intro r hr hp
    rw [decide_eq_true_eq] at hp
    exact ((mem_missingTexts db tokens tags ns r.text).mp hp.1).2 r hr ⟨rfl, hp.2⟩
  have h2 : (mkRows (missingTextsOf db tokens tags ns) ns db.nextId now).filter
      (fun r => decide (r.text ∈ missingTextsOf db tokens tags ns ∧ r.ns = ns)) =
      mkRows (missingTextsOf db tokens tags ns) ns db.nextId now := by
    rw [List.filter_eq_self]
    intro r hr
    rcases mem_mkRows r _ _ _ _ hr with ⟨hns, htxt, _⟩
    simp [hns, htxt]
  rw [h1, h2, List.nil_append]

theorem fetchedTags_eq (db : DB) (tokens tags : List String) (ns : String) (now : Nat) :
    fetchedTagsOf db tokens tags ns now =
      existingTagsOf db tokens tags ns ++
        mkRows (missingTextsOf db tokens tags ns) ns db.nextId now := by
  unfold fetchedTagsOf
  rw [fetchedMissing_eq]

theorem fetched_props (db : DB) (tokens tags : List String) (ns : String) (now : Nat)
    (r : TagRow) (h : r ∈ fetchedTagsOf db tokens tags ns now) :
    r.text ∈ allTagsOf tokens tags ∧ r.ns = ns := by
  rw [fetchedTags_eq, List.mem_append] at h
  rcases h with h | h
  · exact ((mem_existingTags db tokens tags ns r).mp h).2
  · rcases mem_mkRows r _ _ _ _ h with ⟨hns, htxt, _⟩
    exact ⟨((mem_missingTexts db tokens tags ns r.text).mp htxt).1, hns⟩

theorem fetched_sub_base (db : DB) (tokens tags : List String) (ns : String) (now : Nat)
    (r : TagRow) (h : r ∈ fetchedTagsOf db tokens tags ns now) :
    r ∈ (db1Of db tokens tags ns now).tags := by
  rw [fetchedTags_eq, List.mem_append] at h
  rw [db1_tags, List.mem_append]
  rcases h with h | h
  · exact Or.inl ((mem_existingTags db tokens tags ns r).mp h).1
  · exact Or.inr h

theorem exists_fetched (db : DB) (tokens tags : List String) (ns : String) (now : Nat)
    (txt : String) (h : txt ∈ allTagsOf tokens tags) :
    ∃ r ∈ fetchedTagsOf db tokens tags ns now, r.text = txt ∧ r.ns = ns := by
  rw [fetchedTags_eq]
  by_cases hx : ∃ r ∈ db.tags, r.text = txt ∧ r.ns = ns
  · rcases hx with ⟨r, hr, ht, hn⟩
    refine ⟨r, List.mem_append_left _ ?_, ht, hn⟩
    refine (mem_existingTags db tokens tags ns r).mpr ⟨hr, ?_, hn⟩
    rw [ht]
    exact h
  · have hmiss : txt ∈ missingTextsOf db tokens tags ns := by
      rw [mem_missingTexts]
      refine ⟨h, ?_⟩
      rintro r hr ⟨ht, hn⟩
      exact hx ⟨r, hr, ht, hn⟩
    rcases exists_mkRow_of_mem (missingTextsOf db tokens tags ns) ns db.nextId now txt hmiss
      with ⟨r, hr, ht⟩
    exact ⟨r, List.mem_append_right _ hr, ht, (mem_mkRows r _ _ _ _ hr).1⟩

/-! ### Nodup facts under wellformedness -/

theorem base_ids_nodup (db : DB) (tokens tags : List String) (ns : String) (now : Nat)
    (hWF : WF db) :
    (((db1Of db tokens tags ns now).tags).map (fun r => r.id)).Nodup := by
  rw [db1_tags, List.map_append, List.nodup_append]
  refine ⟨hWF.1, mkRows_ids_nodup _ _ _ _, ?_⟩
  intro i hi hj
  rcases List.mem_map.mp hi with ⟨r, hr, rfl⟩
  rcases List.mem_map.mp hj with ⟨s, hs, hid⟩
  have h1 := hWF.2.2.1 r hr
  have h2 := (mem_mkRows s _ _ _ _ hs).2.2.1
  omega

theorem base_keys_nodup (db : DB) (tokens tags : List String) (ns : String) (now : Nat)
    (hWF : WF db) :
    (((db1Of db tokens tags ns now).tags).map (fun r => (r.text, r.ns))).Nodup := by
  rw [db1_tags, List.map_append, List.nodup_append]
  refine ⟨hWF.2.1, ?_, ?_⟩
  · rw [mkRows_map_key]
    refine List.Nodup.map ?_ (nodup_missingTexts db tokens tags ns)
    intro a b hab
    exact (Prod.mk.injEq _ _ _ _).mp hab |>.1
  · intro k hk hk2
    rcases List.mem_map.mp hk with ⟨r, hr, rfl⟩
    rw [mkRows_map_key] at hk2
    rcases List.mem_map.mp hk2 with ⟨t, ht, hkey⟩
    rcases (Prod.mk.injEq _ _ _ _).mp hkey with ⟨htxt, hns⟩
    exact ((mem_missingTexts db tokens tags ns t).mp ht).2 r hr ⟨htxt.symm, hns.symm⟩

theorem base_ids_lt (db : DB) (tokens tags : List String) (ns : String) (now : Nat)
    (hWF : WF db) :
    ∀ r ∈ (db1Of db tokens tags ns now).tags, r.id < (db1Of db tokens tags ns now).nextId := by
  intro r hr
  rw [db1_tags, List.mem_append] at hr
  show r.id < db.nextId + (missingTextsOf db tokens tags ns).length
  rcases hr with hr | hr
  · have := hWF.2.2.1 r hr
    omega
  · have := (mem_mkRows r _ _ _ _ hr).2.2.2.1
    omega

theorem fetched_sublist (db : DB) (tokens tags : List String) (ns : String) (now : Nat) :
    (fetchedTagsOf db tokens tags ns now).Sublist ((db1Of db tokens tags ns now).tags) := by
  rw [fetchedTags_eq, db1_tags]
  exact List.Sublist.append (List.filter_sublist _) (List.Sublist.refl _)

theorem fetched_ids_nodup (db : DB) (tokens tags : List String) (ns : String) (now : Nat)
    (hWF : WF db) : (fetchedIdsOf db tokens tags ns now).Nodup := by
  unfold fetchedIdsOf
  exact List.Nodup.sublist (List.Sublist.map _ (fetched_sublist db tokens tags ns now))
    (base_ids_nodup db tokens tags ns now hWF)

theorem fetched_keys_nodup (db : DB) (tokens tags : List String) (ns : String) (now : Nat)
    (hWF : WF db) :
    ((fetchedTagsOf db tokens tags ns now).map (fun r => (r.text, r.ns))).Nodup :=
  List.Nodup.sublist (List.Sublist.map _ (fetched_sublist db tokens tags ns now))
    (base_keys_nodup db tokens tags ns now hWF)

/-! ### The partition and the candidate edges -/

theorem mem_tagIds (db : DB) (tokens tags : List String) (ns : String) (now : Nat) (i : Nat) :
    i ∈ tagIdsOf db tokens tags ns now ↔
      ∃ r ∈ fetchedTagsOf db tokens tags ns now, r.id = i ∧ r.text ∈ tags := by
  unfold tagIdsOf
  simp [List.mem_map, List.mem_filter]
  tauto

theorem mem_tokenIds (db : DB) (tokens tags : List String) (ns : String) (now : Nat) (i : Nat) :
    i ∈ tokenIdsOf db tokens tags ns now ↔
      ∃ r ∈ fetchedTagsOf db tokens tags ns now, r.id = i ∧ r.text ∉ tags := by
  unfold tokenIdsOf
  simp [List.mem_map, List.mem_filter]
  tauto

theorem tagIds_disjoint_tokenIds (db : DB) (tokens tags : List String) (ns : String)
    (now : Nat) (hWF : WF db) (i : Nat)
    (h1 : i ∈ tagIdsOf db tokens tags ns now) (h2 : i ∈ tokenIdsOf db tokens tags ns now) :
    False := by
  rcases (mem_tagIds db tokens tags ns now i).mp h1 with ⟨r, hr, hri, hrt⟩
  rcases (mem_tokenIds db tokens tags ns now i).mp h2 with ⟨s, hs, hsi, hst⟩
  have hnd : ((fetchedTagsOf db tokens tags ns now).map (fun r => r.id)).Nodup :=
    fetched_ids_nodup db tokens tags ns now hWF
  have : r = s := by
    refine map_nodup_inj (fun r => r.id) _ hnd hr hs ?_
    show r.id = s.id
    rw [hri, hsi]
  rw [this] at hrt
  exact hst hrt

theorem tagIds_sub_fetchedIds (db : DB) (tokens tags : List String) (ns : String) (now : Nat)
    (i : Nat) (h : i ∈ tagIdsOf db tokens tags ns now) : i ∈ fetchedIdsOf db tokens tags ns now := by
  rcases (mem_tagIds db tokens tags ns now i).mp h with ⟨r, hr, hri, _⟩
  unfold fetchedIdsOf
  rw [List.mem_map]
  exact ⟨r, hr, hri⟩

theorem tokenIds_sub_fetchedIds (db : DB) (tokens tags : List String) (ns : String) (now : Nat)
    (i : Nat) (h : i ∈ tokenIdsOf db tokens tags ns now) :
    i ∈ fetchedIdsOf db tokens tags ns now := by
  rcases (mem_tokenIds db tokens tags ns now i).mp h with ⟨r, hr, hri, _⟩
  unfold fetchedIdsOf
  rw [List.mem_map]
  exact ⟨r, hr, hri⟩

theorem mem_candidates (db : DB) (tokens tags : List String) (ns : String) (now : Nat)
    (c : AssocRow) :
    c ∈ candidatesOf db tokens tags ns now ↔
      c.tag_id1 ∈ tagIdsOf db tokens tags ns now ∧
        c.tag_id2 ∈ tokenIdsOf db tokens tags ns now := by
  unfold candidatesOf
  rw [List.mem_flatMap]
  constructor
  · rintro ⟨tid, htid, hmem⟩
    rcases List.mem_map.mp hmem with ⟨t, ht, rfl⟩
    exact ⟨htid, ht⟩
  · rintro ⟨h1, h2⟩
    refine ⟨c.tag_id1, h1, ?_⟩
    rw [List.mem_map]
    exact ⟨c.tag_id2, h2, rfl⟩

theorem existingAssocs_eq (db : DB) (tokens tags : List String) (ns : String) (now : Nat) :
    existingAssocsOf db tokens tags ns now =
      db.assocs.filter (fun a => decide (a.tag_id1 ∈ fetchedIdsOf db tokens tags ns now)) := rfl

/-- The duplicate filter of `associate` is complete: a candidate is
inserted exactly when no row of the whole association table matches it
as an unordered pair (the fetch by first endpoint misses no potential
duplicate, because both candidate endpoints are fetched ids). -/
theorem mem_missingAssocs (db : DB) (tokens tags : List String) (ns : String) (now : Nat)
    (c : AssocRow) :
    c ∈ missingAssocsOf db tokens tags ns now ↔
      c ∈ candidatesOf db tokens tags ns now ∧ ∀ e ∈ db.assocs, eqPair c e = false := by
  unfold missingAssocsOf
  rw [List.mem_filter]
  constructor
  · rintro ⟨hc, hf⟩
    refine ⟨hc, ?_⟩
    intro e he
    by_contra hne
    have hne2 : eqPair c e = true := by simpa using hne
    have hmem : e ∈ existingAssocsOf db tokens tags ns now := by
      rw [existingAssocs_eq, List.mem_filter]
      refine ⟨he, ?_⟩
      rw [decide_eq_true_eq]
      rcases eqPair_endpoints hne2 with h | h
      · rw [h]
        exact tagIds_sub_fetchedIds db tokens tags ns now _
          ((mem_candidates db tokens tags ns now c).mp hc).1
      · rw [h]
        exact tokenIds_sub_fetchedIds db tokens tags ns now _
          ((mem_candidates db tokens tags ns now c).mp hc).2
    have : (existingAssocsOf db tokens tags ns now).any (fun e => eqPair c e) = true :=
      List.any_eq_true.mpr ⟨e, hmem, hne2⟩
    rw [this] at hf
    exact absurd hf (by simp)
  · rintro ⟨hc, hf⟩
    refine ⟨hc, ?_⟩
    have : (existingAssocsOf db tokens tags ns now).any (fun e => eqPair c e) = false := by
      rw [List.any_eq_false]
      intro e he
      rw [existingAssocs_eq, List.mem_filter] at he
      rw [hf e he.1]
      simp
    rw [this]
    rfl

theorem missingAssocs_sub_candidates (db : DB) (tokens tags : List String) (ns : String)
    (now : Nat) : (missingAssocsOf db tokens tags ns now).Sublist
      (candidatesOf db tokens tags ns now) := List.filter_sublist _

/-- Two distinct candidate edges are distinct as unordered pairs. -/
theorem candidates_pairwise (db : DB) (tokens tags : List String) (ns : String) (now : Nat)
    (hWF : WF db) :
    (candidatesOf db tokens tags ns now).Pairwise (fun a b => eqPair a b = false) := by
  have heq : ∀ a ∈ candidatesOf db tokens tags ns now,
      ∀ b ∈ candidatesOf db tokens tags ns now, eqPair a b = true → a = b := by
    intro a ha b hb hab
    rcases (mem_candidates db tokens tags ns now a).mp ha with ⟨ha1, ha2⟩
    rcases (mem_candidates db tokens tags ns now b).mp hb with ⟨hb1, hb2⟩
    rcases (eqPair_iff a b).mp hab with ⟨h1, h2⟩ | ⟨h1, h2⟩
    · cases a
      cases b
      simp only at h1 h2
      rw [h1, h2]
    · exfalso
      rw [h1] at ha1
      exact tagIds_disjoint_tokenIds db tokens tags ns now hWF _ ha1 hb2
  have hnd : (candidatesOf db tokens tags ns now).Nodup := by
    unfold candidatesOf
    rw [List.nodup_flatMap]
    constructor
    · intro tid _
      refine List.Nodup.map ?_ ?_
      · intro x y hxy
        exact congrArg AssocRow.tag_id2 hxy
      · unfold tokenIdsOf
        refine List.Nodup.sublist (List.Sublist.map _ (List.filter_sublist _)) ?_
        have : ((fetchedTagsOf db tokens tags ns now).map (fun r => r.id)).Nodup :=
          fetched_ids_nodup db tokens tags ns now hWF
        exact this
    · have htnd : (tagIdsOf db tokens tags ns now).Nodup := by
        unfold tagIdsOf
        refine List.Nodup.sublist (List.Sublist.map _ (List.filter_sublist _)) ?_
        have : ((fetchedTagsOf db tokens tags ns now).map (fun r => r.id)).Nodup :=
          fetched_ids_nodup db tokens tags ns now hWF
        exact this
      refine List.Pairwise.imp_of_mem ?_ htnd
      intro t1 t2 _ _ hne
      intro c hc1 hc2
      rcases List.mem_map.mp hc1 with ⟨k1, _, rfl⟩
      rcases List.mem_map.mp hc2 with ⟨k2, _, heq2⟩
      exact hne (congrArg AssocRow.tag_id1 heq2).symm
  refine List.Pairwise.imp_of_mem ?_ hnd
  intro a b ha hb hne
  by_contra hcon
  have : eqPair a b = true := by simpa using hcon
  exact hne (heq a ha b hb this)

/-! ### The final state of an `associate` run -/

theorem bumpRow_id (ids : List Nat) (now : Nat) (r : TagRow) :
    (bumpRow ids now r).id = r.id := by
  unfold bumpRow
  split <;> rfl

theorem bumpRow_text (ids : List Nat) (now : Nat) (r : TagRow) :
    (bumpRow ids now r).text = r.text := by
  unfold bumpRow
  split <;> rfl

theorem bumpRow_ns (ids : List Nat) (now : Nat) (r : TagRow) :
    (bumpRow ids now r).ns = r.ns := by
  unfold bumpRow
  split <;> rfl

theorem associateRun_assocs (db : DB) (tokens tags : List String) (ns : String) (now : Nat) :
    (associateRun db tokens tags ns now).assocs =
      db.assocs ++ missingAssocsOf db tokens tags ns now := by
  unfold associateRun
  split <;> rfl

theorem associateRun_nextId (db : DB) (tokens tags : List String) (ns : String) (now : Nat) :
    (associateRun db tokens tags ns now).nextId =
      db.nextId + (missingTextsOf db tokens tags ns).length := by
  unfold associateRun
  split <;> rfl

theorem associateRun_tags (db : DB) (tokens tags : List String) (ns : String) (now : Nat) :
    (associateRun db tokens tags ns now).tags =
      (db1Of db tokens tags ns now).tags.map
        (bumpRow (countIdsOf db tokens tags ns now) now) := by
  unfold associateRun
  split
  · rename_i h
    show (db1Of db tokens tags ns now).tags = _
    rw [h]
    have : ∀ r ∈ (db1Of db tokens tags ns now).tags, bumpRow [] now r = r := by
      intro r _
      unfold bumpRow
      simp
    rw [List.map_congr_left this, List.map_id']
  · rfl

theorem mem_countIds (db : DB) (tokens tags : List String) (ns : String) (now : Nat) (i : Nat) :
    i ∈ countIdsOf db tokens tags ns now ↔ gainedNewEdge db tokens tags ns now i := by
  unfold countIdsOf gainedNewEdge touches
  rw [mem_uniqFirst]
  simp only [List.mem_append, List.mem_map]
  constructor
  · rintro (⟨e, he, rfl⟩ | ⟨e, he, rfl⟩)
    · exact ⟨e, he, Or.inl rfl⟩
    · exact ⟨e, he, Or.inr rfl⟩
  · rintro ⟨e, he, rfl | rfl⟩
    · exact Or.inl ⟨e, he, rfl⟩
    · exact Or.inr ⟨e, he, rfl⟩

/-- Wellformedness is preserved by a run of `associate`. -/
theorem WF_associateRun (db : DB) (tokens tags : List String) (ns : String) (now : Nat)
    (hWF : WF db) : WF (associateRun db tokens tags ns now) := by
  refine ⟨?_, ?_, ?_, ?_⟩
  · rw [associateRun_tags, List.map_map]
    have : ((db1Of db tokens tags ns now).tags.map
        ((fun r => r.id) ∘ bumpRow (countIdsOf db tokens tags ns now) now)) =
        (db1Of db tokens tags ns now).tags.map (fun r => r.id) := by
      refine List.map_congr_left ?_
      intro r _
      exact bumpRow_id _ _ r
    rw [this]
    exact base_ids_nodup db tokens tags ns now hWF
  · rw [associateRun_tags, List.map_map]
    have : ((db1Of db tokens tags ns now).tags.map
        ((fun r => (r.text, r.ns)) ∘ bumpRow (countIdsOf db tokens tags ns now) now)) =
        (db1Of db tokens tags ns now).tags.map (fun r => (r.text, r.ns)) := by
      refine List.map_congr_left ?_
      intro r _
      show ((bumpRow _ now r).text, (bumpRow _ now r).ns) = _
      rw [bumpRow_text, bumpRow_ns]
    rw [this]
    exact base_keys_nodup db tokens tags ns now hWF
  · intro r hr
    rw [associateRun_tags] at hr
    rcases List.mem_map.mp hr with ⟨s, hs, rfl⟩
    rw [bumpRow_id, associateRun_nextId]
    exact base_ids_lt db tokens tags ns now hWF s hs
  · rw [associateRun_assocs, List.pairwise_append]
    refine ⟨hWF.2.2.2, ?_, ?_⟩
    · exact List.Pairwise.sublist (missingAssocs_sub_candidates db tokens tags ns now)
        (candidates_pairwise db tokens tags ns now hWF)
    · intro a ha b hb
      rcases (mem_missingAssocs db tokens tags ns now b).mp hb with ⟨_, hball⟩
      by_contra hcon
      have h1 : eqPair a b = true := by simpa using hcon
      have h2 := eqPair_symm h1
      rw [hball a ha] at h2
      exact absurd h2 (by simp)

/-! ### Resolving labels and counting edges after a run -/

theorem bool_eq_of_iff {a b : Bool} (h : a = true ↔ b = true) : a = b := by
  cases a <;> cases b <;> simp_all

theorem eqPair_fst_swap (i j : Nat) (e : AssocRow) :
    eqPair ⟨i, j⟩ e = eqPair ⟨j, i⟩ e := by
  refine bool_eq_of_iff ?_
  rw [eqPair_iff, eqPair_iff]
  simp only
  tauto

theorem find?_eq_of_key {l : List TagRow} (hkeys : (l.map (fun r => (r.text, r.ns))).Nodup)
    {txt nsx : String} {r : TagRow} (hr : r ∈ l) (htxt : r.text = txt) (hns : r.ns = nsx) :
    l.find? (fun s => decide (s.text = txt ∧ s.ns = nsx)) = some r := by
  induction l with
  | nil => cases hr
  | cons a l ih =>
    by_cases ha : a.text = txt ∧ a.ns = nsx
    · rw [List.find?_cons_of_pos _ (by simpa using ha)]
      have : a = r := by
        refine map_nodup_inj (fun s => (s.text, s.ns)) (a :: l) hkeys
          (List.mem_cons_self a l) hr ?_
        show (a.text, a.ns) = (r.text, r.ns)
        rw [ha.1, ha.2, htxt, hns]
      rw [this]
    · rw [List.find?_cons_of_neg _ (by simpa using ha)]
      rcases List.mem_cons.mp hr with rfl | hr2
      · exact absurd ⟨htxt, hns⟩ ha
      · refine ih ?_ hr2
        rw [List.map_cons, List.nodup_cons] at hkeys
        exact hkeys.2

theorem findLabelId_eq (db' : DB)
    (hkeys : (db'.tags.map (fun r => (r.text, r.ns))).Nodup)
    (txt nsx : String) (r : TagRow) (hr : r ∈ db'.tags)
    (htxt : r.text = txt) (hns : r.ns = nsx) :
    findLabelId db' txt nsx = some r.id := by
  unfold findLabelId
  rw [find?_eq_of_key hkeys hr htxt hns]
  rfl

theorem labelRows_len_le_one (db' : DB)
    (hkeys : (db'.tags.map (fun r => (r.text, r.ns))).Nodup) (txt nsx : String) :
    (labelRows db' txt nsx).length ≤ 1 := by
  unfold labelRows
  have hcong : ∀ r ∈ db'.tags,
      (decide (r.text = txt ∧ r.ns = nsx)) = (decide ((r.text, r.ns) = (txt, nsx))) := by
    intro r _
    refine decide_eq_decide.mpr ?_
    rw [Prod.mk.injEq]
  rw [List.filter_congr hcong]
  exact filter_key_len_le_one (fun r => (r.text, r.ns)) db'.tags hkeys (txt, nsx)

theorem mem_run_tags (db : DB) (tokens tags : List String) (ns : String) (now : Nat)
    (r : TagRow) (h : r ∈ (db1Of db tokens tags ns now).tags) :
    bumpRow (countIdsOf db tokens tags ns now) now r ∈
      (associateRun db tokens tags ns now).tags := by
  rw [associateRun_tags]
  exact List.mem_map_of_mem _ h

theorem label_exists_after (db : DB) (tokens tags : List String) (ns : String) (now : Nat)
    (txt : String) (h : txt ∈ allTagsOf tokens tags) :
    ∃ r ∈ (associateRun db tokens tags ns now).tags, r.text = txt ∧ r.ns = ns := by
  rcases exists_fetched db tokens tags ns now txt h with ⟨r, hr, ht, hn⟩
  refine ⟨bumpRow (countIdsOf db tokens tags ns now) now r,
    mem_run_tags db tokens tags ns now r (fetched_sub_base db tokens tags ns now r hr), ?_, ?_⟩
  · rw [bumpRow_text]
    exact ht
  · rw [bumpRow_ns]
    exact hn

theorem labelRows_len_after (db : DB) (tokens tags : List String) (ns : String) (now : Nat)
    (hWF : WF db) (txt : String) (h : txt ∈ allTagsOf tokens tags) :
    (labelRows (associateRun db tokens tags ns now) txt ns).length = 1 := by
  have hle := labelRows_len_le_one (associateRun db tokens tags ns now)
    (WF_associateRun db tokens tags ns now hWF).2.1 txt ns
  rcases label_exists_after db tokens tags ns now txt h with ⟨r, hr, ht, hn⟩
  have hmem : r ∈ labelRows (associateRun db tokens tags ns now) txt ns := by
    unfold labelRows
    rw [List.mem_filter]
    exact ⟨hr, by simp [ht, hn]⟩
  have hpos : 0 < (labelRows (associateRun db tokens tags ns now) txt ns).length :=
    List.length_pos.mpr (List.ne_nil_of_mem hmem)
  omega

/-- After a run, any row classified on the tag side and any row
classified on the token side (in either role) are joined by some stored
edge. -/
theorem edge_exists_after_aux (db : DB) (tokens tags : List String) (ns : String) (now : Nat)
    (hWF : WF db) (u v : TagRow)
    (hu : u ∈ (associateRun db tokens tags ns now).tags)
    (hv : v ∈ (associateRun db tokens tags ns now).tags)
    (hun : u.ns = ns) (hvn : v.ns = ns) (h1 : u.text ∈ tags)
    (h2 : v.text ∈ allTagsOf tokens tags) (h3 : v.text ∉ tags) :
    ∃ e ∈ (associateRun db tokens tags ns now).assocs, eqPair ⟨u.id, v.id⟩ e = true := by
  have hWF' := WF_associateRun db tokens tags ns now hWF
  rcases exists_fetched db tokens tags ns now u.text
    ((mem_allTags tokens tags u.text).mpr (Or.inr h1)) with ⟨ru, hru, hrut, hrun⟩
  rcases exists_fetched db tokens tags ns now v.text h2 with ⟨rv, hrv, hrvt, hrvn⟩
  have hbu : bumpRow (countIdsOf db tokens tags ns now) now ru ∈
      (associateRun db tokens tags ns now).tags :=
    mem_run_tags db tokens tags ns now ru (fetched_sub_base db tokens tags ns now ru hru)
  have hbv : bumpRow (countIdsOf db tokens tags ns now) now rv ∈
      (associateRun db tokens tags ns now).tags :=
    mem_run_tags db tokens tags ns now rv (fetched_sub_base db tokens tags ns now rv hrv)
  have hu_eq : u = bumpRow (countIdsOf db tokens tags ns now) now ru := by
    refine map_nodup_inj (fun r => (r.text, r.ns)) _ hWF'.2.1 hu hbu ?_
    show (u.text, u.ns) = ((bumpRow (countIdsOf db tokens tags ns now) now ru).text,
      (bumpRow (countIdsOf db tokens tags ns now) now ru).ns)
    rw [bumpRow_text, bumpRow_ns, hrut, hrun, hun]
  have hv_eq : v = bumpRow (countIdsOf db tokens tags ns now) now rv := by
    refine map_nodup_inj (fun r => (r.text, r.ns)) _ hWF'.2.1 hv hbv ?_
    show (v.text, v.ns) = ((bumpRow (countIdsOf db tokens tags ns now) now rv).text,
      (bumpRow (countIdsOf db tokens tags ns now) now rv).ns)
    rw [bumpRow_text, bumpRow_ns, hrvt, hrvn, hvn]
  have huid : u.id = ru.id := by
    rw [hu_eq, bumpRow_id]
  have hvid : v.id = rv.id := by
    rw [hv_eq, bumpRow_id]
  have hti : ru.id ∈ tagIdsOf db tokens tags ns now := by
    rw [mem_tagIds]
    refine ⟨ru, hru, rfl, ?_⟩
    rw [hrut]
    exact h1
  have hki : rv.id ∈ tokenIdsOf db tokens tags ns now := by
    rw [mem_tokenIds]
    refine ⟨rv, hrv, rfl, ?_⟩
    rw [hrvt]
    exact h3
  have hc : (⟨ru.id, rv.id⟩ : AssocRow) ∈ candidatesOf db tokens tags ns now := by
    rw [mem_candidates]
    exact ⟨hti, hki⟩
  rw [associateRun_assocs]
  by_cases hex : ∃ e ∈ db.assocs, eqPair (⟨ru.id, rv.id⟩ : AssocRow) e = true
  · rcases hex with ⟨e, he, hpe⟩
    refine ⟨e, List.mem_append_left _ he, ?_⟩
    rw [huid, hvid]
    exact hpe
  · refine ⟨⟨ru.id, rv.id⟩, List.mem_append_right _ ?_, ?_⟩
    · rw [mem_missingAssocs]
      refine ⟨hc, ?_⟩
      intro e he
      by_contra hcon
      exact hex ⟨e, he, by simpa using hcon⟩
    · rw [huid, hvid]
      exact eqPair_refl _

theorem edge_exists_after (db : DB) (tokens tags : List String) (ns : String) (now : Nat)
    (hWF : WF db) (u v : TagRow)
    (hu : u ∈ (associateRun db tokens tags ns now).tags)
    (hv : v ∈ (associateRun db tokens tags ns now).tags)
    (hun : u.ns = ns) (hvn : v.ns = ns)
    (hsides : (u.text ∈ tags ∧ v.text ∈ allTagsOf tokens tags ∧ v.text ∉ tags) ∨
      (v.text ∈ tags ∧ u.text ∈ allTagsOf tokens tags ∧ u.text ∉ tags)) :
    ∃ e ∈ (associateRun db tokens tags ns now).assocs, eqPair ⟨u.id, v.id⟩ e = true := by
  rcases hsides with ⟨h1, h2, h3⟩ | ⟨h1, h2, h3⟩
  · exact edge_exists_after_aux db tokens tags ns now hWF u v hu hv hun hvn h1 h2 h3
  · rcases edge_exists_after_aux db tokens tags ns now hWF v u hv hu hvn hun h1 h2 h3
      with ⟨e, he, hpe⟩
    refine ⟨e, he, ?_⟩
    rw [eqPair_fst_swap]
    exact hpe

/-- After a run, a tag text and a token text not also listed as a tag
are joined by exactly one stored edge (in either endpoint order). -/
theorem edge_count_after (db : DB) (tokens tags : List String) (ns : String) (now : Nat)
    (hWF : WF db) (t k : String) (ht : t ∈ tags) (hk : k ∈ tokens) (hk2 : k ∉ tags) :
    countEdgesBetweenTexts (associateRun db tokens tags ns now) t k ns = 1 := by
  have hWF' := WF_associateRun db tokens tags ns now hWF
  rcases exists_fetched db tokens tags ns now t
    ((mem_allTags tokens tags t).mpr (Or.inr ht)) with ⟨rt, hrt, htt, htn⟩
  rcases exists_fetched db tokens tags ns now k
    ((mem_allTags tokens tags k).mpr (Or.inl hk)) with ⟨rk, hrk, hkt, hkn⟩
  have hft : findLabelId (associateRun db tokens tags ns now) t ns = some rt.id := by
    have h := findLabelId_eq (associateRun db tokens tags ns now) hWF'.2.1 t ns
      (bumpRow (countIdsOf db tokens tags ns now) now rt)
      (mem_run_tags db tokens tags ns now rt (fetched_sub_base db tokens tags ns now rt hrt))
      (by rw [bumpRow_text]; exact htt) (by rw [bumpRow_ns]; exact htn)
    rw [bumpRow_id] at h
    exact h
  have hfk : findLabelId (associateRun db tokens tags ns now) k ns = some rk.id := by
    have h := findLabelId_eq (associateRun db tokens tags ns now) hWF'.2.1 k ns
      (bumpRow (countIdsOf db tokens tags ns now) now rk)
      (mem_run_tags db tokens tags ns now rk (fetched_sub_base db tokens tags ns now rk hrk))
      (by rw [bumpRow_text]; exact hkt) (by rw [bumpRow_ns]; exact hkn)
    rw [bumpRow_id] at h
    exact h
  have hti : rt.id ∈ tagIdsOf db tokens tags ns now := by
    rw [mem_tagIds]
    refine ⟨rt, hrt, rfl, ?_⟩
    rw [htt]
    exact ht
  have hki : rk.id ∈ tokenIdsOf db tokens tags ns now := by
    rw [mem_tokenIds]
    refine ⟨rk, hrk, rfl, ?_⟩
    rw [hkt]
    exact hk2
  have hc : (⟨rt.id, rk.id⟩ : AssocRow) ∈ candidatesOf db tokens tags ns now := by
    rw [mem_candidates]
    exact ⟨hti, hki⟩
  have honly : ∀ e ∈ missingAssocsOf db tokens tags ns now,
      eqPair e ⟨rt.id, rk.id⟩ = true → e = ⟨rt.id, rk.id⟩ := by
    intro e he hpe
    rcases (mem_candidates db tokens tags ns now e).mp
      (List.Sublist.mem he (missingAssocs_sub_candidates db tokens tags ns now)) with ⟨he1, he2⟩
    rcases (eqPair_iff e ⟨rt.id, rk.id⟩).mp hpe with ⟨ha, hb⟩ | ⟨ha, hb⟩
    · cases e
      simp only at ha hb
      rw [ha, hb]
    · exfalso
      simp only at ha hb
      rw [ha] at he1
      exact tagIds_disjoint_tokenIds db tokens tags ns now hWF _ he1 hki
  unfold countEdgesBetweenTexts
  rw [hft, hfk]
  show ((associateRun db tokens tags ns now).assocs.filter
    (fun e => eqPair e ⟨rt.id, rk.id⟩)).length = 1
  rw [associateRun_assocs, List.filter_append, List.length_append]
  by_cases hex : ∃ e ∈ db.assocs, eqPair e (⟨rt.id, rk.id⟩ : AssocRow) = true
  · have hold : (db.assocs.filter (fun e => eqPair e ⟨rt.id, rk.id⟩)).length = 1 := by
      have hle := filter_eqPair_len_le_one db.assocs hWF.2.2.2 ⟨rt.id, rk.id⟩
      rcases hex with ⟨e, he, hpe⟩
      have : e ∈ db.assocs.filter (fun e => eqPair e ⟨rt.id, rk.id⟩) :=
        List.mem_filter.mpr ⟨he, hpe⟩
      have hpos := List.length_pos.mpr (List.ne_nil_of_mem this)
      omega
    have hnew : (missingAssocsOf db tokens tags ns now).filter
        (fun e => eqPair e ⟨rt.id, rk.id⟩) = [] := by
      rw [List.filter_eq_nil_iff]
      intro e he hpe
      have he_eq := honly e he hpe
      rw [he_eq] at he
      rcases (mem_missingAssocs db tokens tags ns now _).mp he with ⟨_, hall⟩
      rcases hex with ⟨e2, he2, hpe2⟩
      have := hall e2 he2
      rw [eqPair_swap] at hpe2
      rw [show eqPair (⟨rt.id, rk.id⟩ : AssocRow) e2 = true from by
        rw [eqPair_fst_swap]; exact hpe2] at this
      exact absurd this (by simp)
    rw [hold, hnew]
    rfl
  · have hold : db.assocs.filter (fun e => eqPair e ⟨rt.id, rk.id⟩) = [] := by
      rw [List.filter_eq_nil_iff]
      intro e he hpe
      exact hex ⟨e, he, hpe⟩
    have hcm : (⟨rt.id, rk.id⟩ : AssocRow) ∈ missingAssocsOf db tokens tags ns now := by
      rw [mem_missingAssocs]
      refine ⟨hc, ?_⟩
      intro e he
      by_contra hcon
      refine hex ⟨e, he, ?_⟩
      have : eqPair (⟨rt.id, rk.id⟩ : AssocRow) e = true := by simpa using hcon
      exact eqPair_symm this
    have hnew : ((missingAssocsOf db tokens tags ns now).filter
        (fun e => eqPair e ⟨rt.id, rk.id⟩)).length = 1 := by
      have hle := filter_eqPair_len_le_one (missingAssocsOf db tokens tags ns now)
        (List.Pairwise.sublist (missingAssocs_sub_candidates db tokens tags ns now)
          (candidates_pairwise db tokens tags ns now hWF)) ⟨rt.id, rk.id⟩
      have : (⟨rt.id, rk.id⟩ : AssocRow) ∈ (missingAssocsOf db tokens tags ns now).filter
          (fun e => eqPair e ⟨rt.id, rk.id⟩) :=
        List.mem_filter.mpr ⟨hcm, eqPair_refl _⟩
      have hpos := List.length_pos.mpr (List.ne_nil_of_mem this)
      omega
    rw [hold, hnew]
    rfl

/-! ### Idempotence: a saturated call changes nothing -/

/-- When no label is missing and no candidate edge is missing, the
whole run leaves the store untouched. -/
theorem associateRun_noop (db : DB) (tokens tags : List String) (ns : String) (now : Nat)
    (h1 : missingTextsOf db tokens tags ns = [])
    (h2 : missingAssocsOf db tokens tags ns now = []) :
    associateRun db tokens tags ns now = db := by
  have hc : countIdsOf db tokens tags ns now = [] := by
    unfold countIdsOf
    rw [h2]
    simp [uniqFirst, uniqAux]
  unfold associateRun
  rw [if_pos hc]
  show db2Of db tokens tags ns now = db
  unfold db2Of db1Of
  rw [h1, h2]
  cases db
  simp [mkRows]

theorem missingTexts_nil (db : DB) (tokens tags : List String) (ns : String)
    (h : ∀ x ∈ allTagsOf tokens tags, ∃ r ∈ db.tags, r.text = x ∧ r.ns = ns) :
    missingTextsOf db tokens tags ns = [] := by
  rw [List.eq_nil_iff_forall_not_mem]
  intro x hx
  rw [mem_missingTexts] at hx
  rcases h x hx.1 with ⟨r, hr, ht, hn⟩
  exact hx.2 r hr ⟨ht, hn⟩

theorem missingAssocs_nil (db : DB) (tokens tags : List String) (ns : String) (now : Nat)
    (h : ∀ c ∈ candidatesOf db tokens tags ns now, ∃ e ∈ db.assocs, eqPair c e = true) :
    missingAssocsOf db tokens tags ns now = [] := by
  rw [List.eq_nil_iff_forall_not_mem]
  intro c hc
  rw [mem_missingAssocs] at hc
  rcases h c hc.1 with ⟨e, he, hpe⟩
  rw [hc.2 e he] at hpe
  exact absurd hpe (by simp)

/-- A second `associate` call over labels the first call already
materialized, whose classification separates the same label pairs as
the first call's (in either orientation), is a complete no-op. -/
theorem second_run_noop (db : DB) (tokens tags : List String) (ns : String) (now : Nat)
    (hWF : WF db) (tokens2 tags2 : List String) (now2 : Nat)
    (hall : ∀ x, x ∈ allTagsOf tokens2 tags2 → x ∈ allTagsOf tokens tags)
    (hcls : ∀ u v : String, u ∈ allTagsOf tokens2 tags2 → v ∈ allTagsOf tokens2 tags2 →
      u ∈ tags2 → v ∉ tags2 →
      (u ∈ tags ∧ v ∈ allTagsOf tokens tags ∧ v ∉ tags) ∨
        (v ∈ tags ∧ u ∈ allTagsOf tokens tags ∧ u ∉ tags)) :
    associateRun (associateRun db tokens tags ns now) tokens2 tags2 ns now2 =
      associateRun db tokens tags ns now := by
  have h1 : missingTextsOf (associateRun db tokens tags ns now) tokens2 tags2 ns = [] := by
    refine missingTexts_nil _ tokens2 tags2 ns ?_
    intro x hx
    exact label_exists_after db tokens tags ns now x (hall x hx)
  refine associateRun_noop _ tokens2 tags2 ns now2 h1 ?_
  refine missingAssocs_nil _ tokens2 tags2 ns now2 ?_
  intro c hc
  rcases (mem_candidates _ tokens2 tags2 ns now2 c).mp hc with ⟨hc1, hc2⟩
  rcases (mem_tagIds _ tokens2 tags2 ns now2 _).mp hc1 with ⟨r1, hr1, hid1, htx1⟩
  rcases (mem_tokenIds _ tokens2 tags2 ns now2 _).mp hc2 with ⟨r2, hr2, hid2, htx2⟩
  have hfet : fetchedTagsOf (associateRun db tokens tags ns now) tokens2 tags2 ns now2 =
      existingTagsOf (associateRun db tokens tags ns now) tokens2 tags2 ns := by
    rw [fetchedTags_eq, h1]
    simp [mkRows]
  rw [hfet] at hr1 hr2
  rcases (mem_existingTags _ tokens2 tags2 ns r1).mp hr1 with ⟨hr1m, hr1a, hr1n⟩
  rcases (mem_existingTags _ tokens2 tags2 ns r2).mp hr2 with ⟨hr2m, hr2a, hr2n⟩
  have hsides := hcls r1.text r2.text hr1a hr2a htx1 htx2
  rcases edge_exists_after db tokens tags ns now hWF r1 r2 hr1m hr2m hr1n hr2n hsides
    with ⟨e, he, hpe⟩
  refine ⟨e, he, ?_⟩
  have : c = (⟨r1.id, r2.id⟩ : AssocRow) := by
    cases c
    simp only at hid1 hid2
    rw [← hid1, ← hid2]
  rw [this]
  exact hpe

/-! ### Lemmas about `describe` -/

theorem mem_neighbors (db : DB) (tok ns : String) (x : Nat) :
    x ∈ neighborsOf db tok ns ↔ connectedTo db x tok ns := by
  unfold neighborsOf connectedTo
  rw [List.mem_flatMap]
  constructor
  · rintro ⟨a, ha, hmem⟩
    rcases List.mem_map.mp hmem with ⟨g, hg, hval⟩
    rcases List.mem_filter.mp hg with ⟨hgm, hp⟩
    rw [decide_eq_true_eq] at hp
    obtain ⟨hj, htx, hns⟩ := hp
    refine ⟨g, hgm, htx, hns, a, ha, ?_⟩
    rw [eqPair_iff]
    simp only
    by_cases h1 : a.tag_id1 = g.id
    · rw [if_pos h1] at hval
      exact Or.inl ⟨h1, hval⟩
    · rw [if_neg h1] at hval
      rcases hj with hj | hj
      · exact absurd hj h1
      · exact Or.inr ⟨hval, hj⟩
  · rintro ⟨g, hgm, htx, hns, e, he, hpe⟩
    rw [eqPair_iff] at hpe
    simp only at hpe
    refine ⟨e, he, ?_⟩
    rw [List.mem_map]
    refine ⟨g, List.mem_filter.mpr ⟨hgm, ?_⟩, ?_⟩
    · rw [decide_eq_true_eq]
      rcases hpe with ⟨h1, h2⟩ | ⟨h1, h2⟩
      · exact ⟨Or.inl h1, htx, hns⟩
      · exact ⟨Or.inr h2, htx, hns⟩
    · rcases hpe with ⟨h1, h2⟩ | ⟨h1, h2⟩
      · rw [if_pos h1]
        exact h2
      · by_cases h3 : e.tag_id1 = g.id
        · rw [if_pos h3]
          omega
        · rw [if_neg h3]
          exact h1

theorem mem_intersectionAll_cons (x : Nat) (l : List Nat) (ls : List (List Nat)) :
    x ∈ intersectionAll (l :: ls) ↔ x ∈ l ∧ ∀ l2 ∈ ls, x ∈ l2 := by
  unfold intersectionAll
  rw [List.mem_filter, mem_uniqFirst]
  simp

theorem mem_intersectionAll_all (x : Nat) (L : List (List Nat)) (h : x ∈ intersectionAll L) :
    ∀ l ∈ L, x ∈ l := by
  cases L with
  | nil => simp [intersectionAll] at h
  | cons l ls =>
    rw [mem_intersectionAll_cons] at h
    intro l2 hl2
    rcases List.mem_cons.mp hl2 with rfl | hl2
    · exact h.1
    · exact h.2 l2 hl2

theorem mem_describeIds (db : DB) (tokens : List String) (ns : String) (h : tokens ≠ [])
    (x : Nat) :
    x ∈ intersectionAll ((uniqFirst tokens).map (fun tok => neighborsOf db tok ns)) ↔
      ∀ tok ∈ tokens, connectedTo db x tok ns := by
  rcases hu : uniqFirst tokens with _ | ⟨t0, rest⟩
  · exact absurd hu (uniqFirst_ne_nil tokens h)
  rw [List.map_cons, mem_intersectionAll_cons]
  constructor
  · rintro ⟨h0, hrest⟩ tok htok
    rw [← mem_neighbors]
    have htok2 : tok ∈ t0 :: rest := by
      rw [← hu]
      exact (mem_uniqFirst tok tokens).mpr htok
    rcases List.mem_cons.mp htok2 with rfl | htok3
    · exact h0
    · exact hrest _ (List.mem_map_of_mem _ htok3)
  · intro hall
    have ht0 : t0 ∈ tokens := by
      refine (mem_uniqFirst t0 tokens).mp ?_
      rw [hu]
      exact List.mem_cons_self _ _
    refine ⟨(mem_neighbors db t0 ns x).mpr (hall t0 ht0), ?_⟩
    intro l2 hl2
    rcases List.mem_map.mp hl2 with ⟨tok, htok, rfl⟩
    have htok4 : tok ∈ tokens := by
      refine (mem_uniqFirst tok tokens).mp ?_
      rw [hu]
      exact List.mem_cons_of_mem _ htok
    exact (mem_neighbors db tok ns x).mpr (hall tok htok4)

/-! ### LIKE patterns and symmetric edge counting -/

theorem eqPair_comm (x y : AssocRow) : eqPair x y = eqPair y x :=
  bool_eq_of_iff ⟨fun h => eqPair_symm h, fun h => eqPair_symm h⟩

theorem eqPair_snd_swap (e : AssocRow) (i j : Nat) :
    eqPair e ⟨i, j⟩ = eqPair e ⟨j, i⟩ := by
  rw [eqPair_swap, eqPair_comm]

theorem countEdges_comm (db : DB) (x y ns : String) :
    countEdgesBetweenTexts db x y ns = countEdgesBetweenTexts db y x ns := by
  unfold countEdgesBetweenTexts
  rcases hx : findLabelId db x ns with _ | i <;> rcases hy : findLabelId db y ns with _ | j <;>
    simp only []
  refine congrArg List.length (List.filter_congr ?_)
  intro e _
  exact eqPair_snd_swap e i j

/-- A single `%` matches any string, given enough fuel. -/
theorem likeFuel_percent (s : List Char) : ∀ (f : Nat), s.length + 2 ≤ f →
    likeFuel f ['%'] s = true := by
  induction s with
  | nil =>
    intro f hf
    obtain ⟨f2, rfl⟩ : ∃ f2, f = f2 + 2 := ⟨f - 2, by omega⟩
    rfl
  | cons c s2 ih =>
    intro f hf
    obtain ⟨f2, rfl⟩ : ∃ f2, f = f2 + 1 := ⟨f - 1, by omega⟩
    have h2 : likeFuel f2 ['%'] s2 = true := by
      refine ih f2 ?_
      simp only [List.length_cons] at hf
      omega
    rw [likeFuel, h2]
    simp

theorem likeFuel_percent3 (f : Nat) (s : List Char) (h : s.length + 4 ≤ f) :
    likeFuel f ['%', '%', '%'] s = true := by
  obtain ⟨f2, rfl⟩ : ∃ f2, f = f2 + 1 := ⟨f - 1, by omega⟩
  have h1 : likeFuel f2 ['%', '%'] s = true := by
    obtain ⟨f3, rfl⟩ : ∃ f3, f2 = f3 + 1 := ⟨f2 - 1, by omega⟩
    have h2 : likeFuel f3 ['%'] s = true := likeFuel_percent s f3 (by omega)
    cases s with
    | nil =>
      rw [likeFuel, h2]
      simp
    | cons c s2 =>
      rw [likeFuel, h2]
      simp
  cases s with
  | nil =>
    rw [likeFuel, h1]
    simp
  | cons c s2 =>
    rw [likeFuel, h1]
    simp

/-- The pattern `search` builds for the input `%` matches every text. -/
theorem likeMatch_all_percent (s : String) : likeMatch ("%" ++ "%" ++ "%") s = true := by
  show likeFuel (("%" ++ "%" ++ "%").toList.length + s.toList.length + 1)
    ("%" ++ "%" ++ "%").toList s.toList = true
  rw [show ("%" ++ "%" ++ "%").toList = ['%', '%', '%'] from rfl]
  refine likeFuel_percent3 _ _ ?_
  simp only [List.length_cons, List.length_nil]
  omega

/-! ### Claim C1 -/

/-- C1: the claim says a label's counter increases by exactly the number
of new edges it gained.  Refutation at a concrete input: on an empty
store, `associate(['a','b'], ['c'])` gives the label `c` (id 3) two new
edges, yet its counter ends at 1, because the bulk update adds one per
involved label, not one per new edge. -/
theorem C1_counterexample :
    ((associateRun ⟨[], [], 1⟩ ["a", "b"] ["c"] "public" 7).tags.filter
        (fun r => decide (r.text = "c"))).map (fun r => (r.id, r.count)) = [(3, 1)] ∧
    ((missingAssocsOf ⟨[], [], 1⟩ ["a", "b"] ["c"] "public" 7).filter
        (fun e => decide (touches e 3))).length = 2 ∧
    (1 : Nat) ≠ 2 := by
  refine ⟨by decide, by decide, by decide⟩

/-- C1 (amended): for every successful `associate` call, the counter of
every label that gained at least one new edge increases by exactly one
(regardless of how many new edges it gained: a freshly created label
ends at 1), and the counter of every label that gained no new edge —
including labels not involved in the call — is unchanged (a freshly
created label that gained none ends at the schema default 0). -/
theorem C1_count_bump_once (db : DB) (tokens tags : List String) (ns : String) (now : Nat)
    (hWF : WF db) (db' : DB) (h : associate db tokens tags ns now = some db') :
    (∀ r' ∈ db'.tags, ∀ r ∈ db.tags, r'.id = r.id →
      r'.count = if gainedNewEdge db tokens tags ns now r.id then r.count + 1 else r.count) ∧
    (∀ r' ∈ db'.tags, r'.id ∉ db.tags.map (fun r => r.id) →
      r'.count = if gainedNewEdge db tokens tags ns now r'.id then 1 else 0) := by
  unfold associate at h
  by_cases hc : tokens = [] ∨ tags = []
  · rw [if_pos hc] at h
    exact absurd h (by simp)
  rw [if_neg hc] at h
  have hd : associateRun db tokens tags ns now = db' := Option.some.inj h
  subst hd
  constructor
  · intro r' hr' r hr hid
    rw [associateRun_tags] at hr'
    rcases List.mem_map.mp hr' with ⟨s, hs, rfl⟩
    have hsid : s.id = r.id := by
      rw [← bumpRow_id (countIdsOf db tokens tags ns now) now s]
      exact hid
    have hsr : s = r := by
      refine map_nodup_inj (fun r => r.id) _ (base_ids_nodup db tokens tags ns now hWF)
        hs ?_ hsid
      rw [db1_tags]
      exact List.mem_append_left _ hr
    subst hsr
    by_cases hg : gainedNewEdge db tokens tags ns now s.id
    · rw [if_pos hg]
      unfold bumpRow
      rw [if_pos ((mem_countIds db tokens tags ns now s.id).mpr hg)]
    · rw [if_neg hg]
      unfold bumpRow
      rw [if_neg (fun hmem => hg ((mem_countIds db tokens tags ns now s.id).mp hmem))]
  · intro r' hr' hnot
    rw [associateRun_tags] at hr'
    rcases List.mem_map.mp hr' with ⟨s, hs, rfl⟩
    rw [db1_tags, List.mem_append] at hs
    rcases hs with hs | hs
    · exfalso
      refine hnot ?_
      rw [bumpRow_id]
      exact List.mem_map_of_mem _ hs
    · have hcount : s.count = 0 := (mem_mkRows s _ _ _ _ hs).2.2.2.2.1
      rw [bumpRow_id]
      by_cases hg : gainedNewEdge db tokens tags ns now s.id
      · rw [if_pos hg]
        unfold bumpRow
        rw [if_pos ((mem_countIds db tokens tags ns now s.id).mpr hg), hcount]
      · rw [if_neg hg]
        unfold bumpRow
        rw [if_neg (fun hmem => hg ((mem_countIds db tokens tags ns now s.id).mp hmem))]
        exact hcount

theorem C1_count_bump_once_witness :
    (⟨1, "john", "public", 1, 0, 0⟩ : TagRow).count =
      if gainedNewEdge ⟨[], [], 1⟩ ["john"] ["hello"] "public" 0 1 then 1 else 0 := by
  have h := C1_count_bump_once ⟨[], [], 1⟩ ["john"] ["hello"] "public" 0 (by decide)
    (associateRun ⟨[], [], 1⟩ ["john"] ["hello"] "public" 0) (by decide)
  exact h.2 ⟨1, "john", "public", 1, 0, 0⟩ (by decide) (by decide)

/-! ### Claim C2 -/

theorem pair_second_same_noop (db : DB) (a b ns : String) (n1 n2 : Nat) (hWF : WF db) :
    associateRun (associateRun db [a] [b] ns n1) [a] [b] ns n2 =
      associateRun db [a] [b] ns n1 := by
  refine second_run_noop db [a] [b] ns n1 hWF [a] [b] n2 (fun x hx => hx) ?_
  intro u v hu hv hut hvt
  exact Or.inl ⟨hut, hv, hvt⟩

set_option maxHeartbeats 800000 in
theorem pair_second_rev_noop (db : DB) (a b ns : String) (n1 n3 : Nat) (hWF : WF db)
    (hab : a ≠ b) :
    associateRun (associateRun db [a] [b] ns n1) [b] [a] ns n3 =
      associateRun db [a] [b] ns n1 := by
  refine second_run_noop db [a] [b] ns n1 hWF [b] [a] n3 ?_ ?_
  · intro x hx
    rw [mem_allTags] at hx ⊢
    tauto
  · intro u v hu hv hut hvt
    rw [List.mem_singleton] at hut
    rw [mem_allTags] at hu hv
    have hvb : v = b := by
      rcases hv with hv | hv
      · exact List.mem_singleton.mp hv
      · exact absurd hv hvt
    subst hut hvb
    refine Or.inr ⟨List.mem_singleton.mpr rfl, ?_, ?_⟩
    · rw [mem_allTags]
      exact Or.inl (List.mem_singleton.mpr rfl)
    · intro hmem
      exact hab (List.mem_singleton.mp hmem)

set_option maxHeartbeats 800000 in
theorem pair_first_edge_count (db : DB) (a b ns : String) (n1 : Nat) (hWF : WF db)
    (hab : a ≠ b) :
    countEdgesBetweenTexts (associateRun db [a] [b] ns n1) a b ns = 1 := by
  rw [countEdges_comm]
  exact edge_count_after db [a] [b] ns n1 hWF b a (List.mem_singleton.mpr rfl)
    (List.mem_singleton.mpr rfl) (fun hmem => hab (List.mem_singleton.mp hmem))

set_option maxHeartbeats 800000 in
/-- C2: for every pair of (distinct) label texts and every namespace,
associating them, then associating again in the same or reversed order,
leaves exactly one stored edge between them (counting both endpoint
orders), and the second call creates no new label row. -/
theorem C2_repeat_reverse_single_edge (db : DB) (a b ns : String) (n1 n2 n3 : Nat)
    (hWF : WF db) (hab : a ≠ b) :
    countEdgesBetweenTexts
      (associateRun (associateRun db [a] [b] ns n1) [a] [b] ns n2) a b ns = 1 ∧
    (associateRun (associateRun db [a] [b] ns n1) [a] [b] ns n2).tags.length =
      (associateRun db [a] [b] ns n1).tags.length ∧
    countEdgesBetweenTexts
      (associateRun (associateRun db [a] [b] ns n1) [b] [a] ns n3) a b ns = 1 ∧
    (associateRun (associateRun db [a] [b] ns n1) [b] [a] ns n3).tags.length =
      (associateRun db [a] [b] ns n1).tags.length := by
  rw [pair_second_same_noop db a b ns n1 n2 hWF, pair_second_rev_noop db a b ns n1 n3 hWF hab]
  exact ⟨pair_first_edge_count db a b ns n1 hWF hab, rfl,
    pair_first_edge_count db a b ns n1 hWF hab, rfl⟩

theorem C2_repeat_reverse_single_edge_witness :
    countEdgesBetweenTexts
      (associateRun (associateRun ⟨[], [], 1⟩ ["a"] ["b"] "public" 0) ["a"] ["b"] "public" 1)
      "a" "b" "public" = 1 ∧
    (associateRun (associateRun ⟨[], [], 1⟩ ["a"] ["b"] "public" 0)
      ["a"] ["b"] "public" 1).tags.length =
      (associateRun ⟨[], [], 1⟩ ["a"] ["b"] "public" 0).tags.length ∧
    countEdgesBetweenTexts
      (associateRun (associateRun ⟨[], [], 1⟩ ["a"] ["b"] "public" 0) ["b"] ["a"] "public" 2)
      "a" "b" "public" = 1 ∧
    (associateRun (associateRun ⟨[], [], 1⟩ ["a"] ["b"] "public" 0)
      ["b"] ["a"] "public" 2).tags.length =
      (associateRun ⟨[], [], 1⟩ ["a"] ["b"] "public" 0).tags.length :=
  C2_repeat_reverse_single_edge ⟨[], [], 1⟩ "a" "b" "public" 0 1 2 (by decide) (by decide)

/-! ### Claim C3 -/

/-- C3: the claim says every cross pair `(t ∈ tags, k ∈ tokens)` ends up
connected.  Refutation at a concrete input: in the successful call
`associate(['a'], ['a','b'])` the text `a` is classified as a tag (tag
membership takes precedence), the token partition is empty, and no edge
at all is created, so the cross pair `(b, a)` is not connected. -/
theorem C3_counterexample :
    associate ⟨[], [], 1⟩ ["a"] ["a", "b"] "public" 0 =
      some (associateRun ⟨[], [], 1⟩ ["a"] ["a", "b"] "public" 0) ∧
    "b" ∈ (["a", "b"] : List String) ∧ "a" ∈ (["a"] : List String) ∧
    (associateRun ⟨[], [], 1⟩ ["a"] ["a", "b"] "public" 0).assocs = [] ∧
    countEdgesBetweenTexts (associateRun ⟨[], [], 1⟩ ["a"] ["a", "b"] "public" 0)
      "b" "a" "public" = 0 ∧
    (0 : Nat) ≠ 1 := by
  refine ⟨by decide, by decide, by decide, by decide, by decide, by decide⟩

/-- C3 (amended): for every successful `associate` call on a wellformed
store, every cross pair `(t ∈ tags, k ∈ tokens)` whose token text `k`
does not also occur in the tags collection is connected by exactly one
undirected edge in the namespace, and every input text with no label row
in the namespace beforehand has exactly one label row afterwards. -/
theorem C3_amended_cross_pairs (db : DB) (tokens tags : List String) (ns : String) (now : Nat)
    (hWF : WF db) (db' : DB) (h : associate db tokens tags ns now = some db') :
    (∀ t ∈ tags, ∀ k ∈ tokens, k ∉ tags → countEdgesBetweenTexts db' t k ns = 1) ∧
    (∀ txt, (txt ∈ tokens ∨ txt ∈ tags) → labelRows db txt ns = [] →
      (labelRows db' txt ns).length = 1) := by
  unfold associate at h
  by_cases hc : tokens = [] ∨ tags = []
  · rw [if_pos hc] at h
    exact absurd h (by simp)
  · rw [if_neg hc] at h
    have hd : associateRun db tokens tags ns now = db' := Option.some.inj h
    subst hd
    constructor
    · intro t ht k hk hk2
      exact edge_count_after db tokens tags ns now hWF t k ht hk hk2
    · intro txt htxt _
      exact labelRows_len_after db tokens tags ns now hWF txt
        ((mem_allTags tokens tags txt).mpr htxt)

theorem C3_amended_cross_pairs_witness :
    countEdgesBetweenTexts (associateRun ⟨[], [], 1⟩ ["john"] ["hello"] "public" 0)
      "hello" "john" "public" = 1 ∧
    (labelRows (associateRun ⟨[], [], 1⟩ ["john"] ["hello"] "public" 0)
      "john" "public").length = 1 := by
  have h := C3_amended_cross_pairs ⟨[], [], 1⟩ ["john"] ["hello"] "public" 0 (by decide)
    (associateRun ⟨[], [], 1⟩ ["john"] ["hello"] "public" 0) (by decide)
  exact ⟨h.1 "hello" (by decide) "john" (by decide) (by decide),
    h.2 "john" (Or.inl (by decide)) (by decide)⟩

/-! ### Claim C4 -/

/-- C4: for a non-empty token list, `describe` returns exactly the texts
of the labels connected by a stored edge (in either endpoint position)
to every one of the query tokens in the namespace: an id survives only
if it lies in every per-token neighbor set, and the survivors are
resolved back to texts. -/
theorem C4_describe_intersection (db : DB) (tokens : List String) (ns : String)
    (h : tokens ≠ []) :
    describe db tokens ns = some (describeRun db tokens ns) ∧
    ∀ s, s ∈ describeRun db tokens ns ↔
      ∃ g ∈ db.tags, g.text = s ∧ ∀ tok ∈ tokens, connectedTo db g.id tok ns := by
  constructor
  · unfold describe
    rw [if_neg h]
  intro s
  simp only [describeRun]
  by_cases hids : intersectionAll ((uniqFirst tokens).map (fun tok => neighborsOf db tok ns)) = []
  · rw [hids]
    simp only [List.mem_nil_iff, if_pos rfl]
    constructor
    · intro hmem
      exact absurd hmem (List.not_mem_nil s)
    · rintro ⟨g, hg, rfl, hall⟩
      have hm : g.id ∈ intersectionAll
          ((uniqFirst tokens).map (fun tok => neighborsOf db tok ns)) :=
        (mem_describeIds db tokens ns h g.id).mpr hall
      rw [hids] at hm
      exact absurd hm (List.not_mem_nil g.id)
  · rw [if_neg hids]
    constructor
    · intro hmem
      rcases List.mem_map.mp hmem with ⟨g, hg, rfl⟩
      rcases List.mem_filter.mp hg with ⟨hgm, hgi⟩
      rw [decide_eq_true_eq] at hgi
      exact ⟨g, hgm, rfl, (mem_describeIds db tokens ns h g.id).mp hgi⟩
    · rintro ⟨g, hgm, rfl, hall⟩
      rw [List.mem_map]
      refine ⟨g, List.mem_filter.mpr ⟨hgm, ?_⟩, rfl⟩
      rw [decide_eq_true_eq]
      exact (mem_describeIds db tokens ns h g.id).mpr hall

theorem C4_describe_intersection_witness :
    describe (⟨[⟨1, "peter", "public", 0, 0, 0⟩, ⟨2, "what", "public", 0, 0, 0⟩],
        [⟨1, 2⟩], 3⟩ : DB) ["what"] "public" =
      some (describeRun (⟨[⟨1, "peter", "public", 0, 0, 0⟩, ⟨2, "what", "public", 0, 0, 0⟩],
        [⟨1, 2⟩], 3⟩ : DB) ["what"] "public") ∧
    ("peter" ∈ describeRun (⟨[⟨1, "peter", "public", 0, 0, 0⟩, ⟨2, "what", "public", 0, 0, 0⟩],
        [⟨1, 2⟩], 3⟩ : DB) ["what"] "public" ↔
      ∃ g ∈ (⟨[⟨1, "peter", "public", 0, 0, 0⟩, ⟨2, "what", "public", 0, 0, 0⟩],
        [⟨1, 2⟩], 3⟩ : DB).tags, g.text = "peter" ∧
        ∀ tok ∈ ["what"], connectedTo (⟨[⟨1, "peter", "public", 0, 0, 0⟩,
          ⟨2, "what", "public", 0, 0, 0⟩], [⟨1, 2⟩], 3⟩ : DB) g.id tok "public") := by
  have h := C4_describe_intersection (⟨[⟨1, "peter", "public", 0, 0, 0⟩,
    ⟨2, "what", "public", 0, 0, 0⟩], [⟨1, 2⟩], 3⟩ : DB) ["what"] "public" (by decide)
  exact ⟨h.1, h.2 "peter"⟩

/-! ### Claim C5 -/

/-- C5: whatever step of the `associate` promise chain fails, the final
rejection handler is `trans.rollback`, so the observable store state is
exactly the pre-transaction state — no labels without their edges and no
edges without their counter updates are ever observable; and a chain
with no failure commits exactly the full run's state, so the observable
state is always one of the two. -/
theorem C5_transaction_atomic (db : DB) (tokens tags : List String) (ns : String) (now : Nat) :
    associateTxResult db tokens tags ns now (some 0) = db ∧
    associateTxResult db tokens tags ns now (some 1) = db ∧
    associateTxResult db tokens tags ns now (some 2) = db ∧
    associateTxResult db tokens tags ns now (some 3) = db ∧
    associateTxResult db tokens tags ns now (some 4) = db ∧
    associateTxResult db tokens tags ns now (some 5) = db ∧
    associateTxResult db tokens tags ns now none = associateRun db tokens tags ns now ∧
    ∀ failAt, associateTxResult db tokens tags ns now failAt = db ∨
      associateTxResult db tokens tags ns now failAt = associateRun db tokens tags ns now := by
  refine ⟨rfl, rfl, rfl, rfl, rfl, rfl, rfl, ?_⟩
  intro failAt
  rcases failAt with _ | k
  · exact Or.inr rfl
  · rcases k with _ | _ | _ | _ | _ | _ | n
    · exact Or.inl rfl
    · exact Or.inl rfl
    · exact Or.inl rfl
    · exact Or.inl rfl
    · exact Or.inl rfl
    · exact Or.inl rfl
    · exact Or.inr rfl

/-! ### Claim C6 -/

/-- C6: when some query token has no matching label row in the
namespace, or its label touches no stored edge, that token's neighbor
set is empty, the overall intersection is empty, and `describe` returns
the empty collection rather than raising an error. -/
theorem C6_unknown_token_empty (db : DB) (tokens : List String) (ns : String)
    (h : tokens ≠ [])
    (hx : ∃ tok ∈ tokens, ∀ g ∈ db.tags, g.text = tok → g.ns = ns →
      ∀ e ∈ db.assocs, ¬ touches e g.id) :
    describe db tokens ns = some [] := by
  rcases hx with ⟨tok, htok, hno⟩
  have hnb : neighborsOf db tok ns = [] := by
    rw [List.eq_nil_iff_forall_not_mem]
    intro x hxm
    rw [mem_neighbors] at hxm
    rcases hxm with ⟨g, hg, htx, hns, e, he, hpe⟩
    refine hno g hg htx hns e he ?_
    unfold touches
    rcases (eqPair_iff e ⟨g.id, x⟩).mp hpe with ⟨h1, _⟩ | ⟨_, h2⟩
    · exact Or.inl h1
    · exact Or.inr h2
  have hids : intersectionAll ((uniqFirst tokens).map (fun t => neighborsOf db t ns)) = [] := by
    rw [List.eq_nil_iff_forall_not_mem]
    intro x hxm
    have hall := mem_intersectionAll_all x _ hxm
    have hmem : neighborsOf db tok ns ∈
        (uniqFirst tokens).map (fun t => neighborsOf db t ns) :=
      List.mem_map_of_mem _ ((mem_uniqFirst tok tokens).mpr htok)
    have hx2 := hall _ hmem
    rw [hnb] at hx2
    exact absurd hx2 (List.not_mem_nil x)
  unfold describe
  rw [if_neg h]
  refine congrArg some ?_
  simp only [describeRun]
  rw [hids]
  simp

theorem C6_unknown_token_empty_witness :
    describe ⟨[], [], 1⟩ ["zzz"] "public" = some [] :=
  C6_unknown_token_empty ⟨[], [], 1⟩ ["zzz"] "public" (by decide)
    ⟨"zzz", by decide, by decide⟩

/-! ### Claim C7 -/

/-- C7: the claim says `describe` on an empty token list returns an
empty result.  Refutation: the early return produces no result value at
all (`undefined` in the source, `none` in this embedding), not an empty
collection. -/
theorem C7_counterexample :
    describe (⟨[], [], 1⟩ : DB) ([] : List String) "public" ≠ some [] := by
  decide

/-- C7 (amended): `associate` with either input collection empty returns
immediately with no value — no transaction is opened and the store state
is untouched — and `describe` with an empty token list likewise returns
immediately with no result value (rather than an empty collection)
without touching storage; neither case raises an error. -/
theorem C7_empty_inputs_noop (db : DB) (tokens tags : List String) (ns : String) (now : Nat) :
    associate db [] tags ns now = none ∧
    associate db tokens [] ns now = none ∧
    associateState db [] tags ns now = db ∧
    associateState db tokens [] ns now = db ∧
    describe db [] ns = none := by
  refine ⟨?_, ?_, ?_, ?_, ?_⟩ <;> simp [associate, associateState, describe]

/-! ### Claim C8 -/

/-- C8: no inserted edge is a self-loop (the cross product only joins
the two disjoint partitions), and a text occurring in both input
collections yields exactly one label row, classified on the tag side of
the partition and not on the token side. -/
theorem C8_no_self_loops_tag_precedence (db : DB) (tokens tags : List String) (ns : String)
    (now : Nat) (hWF : WF db) :
    (∀ e ∈ missingAssocsOf db tokens tags ns now, e.tag_id1 ≠ e.tag_id2) ∧
    ∀ txt, txt ∈ tokens → txt ∈ tags →
      (labelRows (associateRun db tokens tags ns now) txt ns).length = 1 ∧
      ∀ r ∈ fetchedTagsOf db tokens tags ns now, r.text = txt →
        r.id ∈ tagIdsOf db tokens tags ns now ∧ r.id ∉ tokenIdsOf db tokens tags ns now := by
  constructor
  · intro e he heq
    rcases (mem_candidates db tokens tags ns now e).mp
      (List.Sublist.mem he (missingAssocs_sub_candidates db tokens tags ns now)) with ⟨h1, h2⟩
    rw [heq] at h1
    exact tagIds_disjoint_tokenIds db tokens tags ns now hWF _ h1 h2
  · intro txt h1 h2
    refine ⟨labelRows_len_after db tokens tags ns now hWF txt
      ((mem_allTags tokens tags txt).mpr (Or.inr h2)), ?_⟩
    intro r hr hrt
    have hti : r.id ∈ tagIdsOf db tokens tags ns now := by
      rw [mem_tagIds]
      exact ⟨r, hr, rfl, by rw [hrt]; exact h2⟩
    exact ⟨hti, fun hko => tagIds_disjoint_tokenIds db tokens tags ns now hWF _ hti hko⟩

theorem C8_no_self_loops_tag_precedence_witness :
    (labelRows (associateRun ⟨[], [], 1⟩ ["x"] ["x"] "public" 0) "x" "public").length = 1 ∧
    ((1 : Nat) ∈ tagIdsOf ⟨[], [], 1⟩ ["x"] ["x"] "public" 0 ∧
      (1 : Nat) ∉ tokenIdsOf ⟨[], [], 1⟩ ["x"] ["x"] "public" 0) := by
  have h := (C8_no_self_loops_tag_precedence ⟨[], [], 1⟩ ["x"] ["x"] "public" 0 (by decide)).2
    "x" (by decide) (by decide)
  exact ⟨h.1, h.2 ⟨1, "x", "public", 0, 0, 0⟩ (by decide) rfl⟩

/-! ### Claim C9 -/

/-- C9: `associate` is idempotent on the whole store state: immediately
repeating a successful call inserts no rows and modifies no existing
row — every label's counter and `updated_at` stay exactly as the first
call left them, whatever clock value the second call runs at. -/
theorem C9_associate_idempotent (db : DB) (tokens tags : List String) (ns : String)
    (n1 n2 : Nat) (hWF : WF db) (d1 : DB) (h : associate db tokens tags ns n1 = some d1) :
    associate d1 tokens tags ns n2 = some d1 := by
  unfold associate at h ⊢
  by_cases hc : tokens = [] ∨ tags = []
  · rw [if_pos hc] at h
    exact absurd h (by simp)
  · rw [if_neg hc] at h
    rw [if_neg hc]
    have hd : associateRun db tokens tags ns n1 = d1 := Option.some.inj h
    subst hd
    refine congrArg some ?_
    refine second_run_noop db tokens tags ns n1 hWF tokens tags n2 (fun x hx => hx) ?_
    intro u v hu hv hut hvt
    exact Or.inl ⟨hut, hv, hvt⟩

theorem C9_associate_idempotent_witness :
    associate (⟨[⟨1, "a", "public", 1, 0, 0⟩, ⟨2, "b", "public", 1, 0, 0⟩],
        [⟨2, 1⟩], 3⟩ : DB) ["a"] ["b"] "public" 5 =
      some (⟨[⟨1, "a", "public", 1, 0, 0⟩, ⟨2, "b", "public", 1, 0, 0⟩],
        [⟨2, 1⟩], 3⟩ : DB) :=
  C9_associate_idempotent ⟨[], [], 1⟩ ["a"] ["b"] "public" 0 5 (by decide)
    ⟨[⟨1, "a", "public", 1, 0, 0⟩, ⟨2, "b", "public", 1, 0, 0⟩], [⟨2, 1⟩], 3⟩ (by decide)

/-! ### Claim C10 -/

/-- C10: `search` embeds its input unescaped between two `%` wildcards
of a LIKE pattern, so wildcard characters act as wildcards: searching
for `%` returns the text of every label in the namespace, and a query
(here `a_c`) can return a label (`abc`) whose text does not contain the
query as a literal substring. -/
theorem C10_search_like_wildcards :
    (∀ (db : DB) (ns : String), search db "%" ns =
      some ((db.tags.filter (fun g => decide (g.ns = ns))).map (fun g => g.text))) ∧
    search (⟨[⟨1, "abc", "public", 0, 0, 0⟩], [], 2⟩ : DB) "a_c" "public" = some ["abc"] ∧
    substrCheck "a_c" "abc" = false := by
  refine ⟨?_, by decide, by decide⟩
  intro db ns
  unfold search
  rw [if_neg (by decide)]
  refine congrArg some ?_
  refine congrArg (List.map (fun g : TagRow => g.text)) ?_
  refine List.filter_congr ?_
  intro g _
  rw [likeMatch_all_percent g.text, Bool.true_and]

end TiqDb
